import Mathlib

/-!
Verification of the matchmaking/session broker of the video-chat
application (source: `server/src/socket.ts`).

The broker keeps four pieces of in-memory state, translated here field by
field from the source:

* `waitingPeers : Peer[]`            → `Broker.queue : List Peer`
* `matches : Map<string, Match>`     → `Broker.matchTab : String → Option Match`
* `blocklists : Map<string, Set<string>>`
                                     → `Broker.blocklists : String → List String`
  (the JS map with absent keys behaving as the empty set is modelled as a
  total function defaulting to `[]`; only membership is ever queried, so
  the list is membership-equivalent to the `Set`)
* the socket.io connection registry `io.sockets.sockets`
                                     → `Broker.connected : List String`

Each socket event handler becomes a pure function
`Broker → ... → Broker × List Out` where `Out` records the notifications
the handler emits (`socket.emit` / `io.to(id).emit` / `io.emit`).
Socket objects themselves are replaced by the id-keyed connection
registry: `io.sockets.sockets.get(id)` is `Broker.connected.contains id`.
The unused `isPremium` field of the source `Peer` interface is dropped,
and `Date.now()` is passed in as the `now` argument of a search event.
-/

/-- Opaque client-supplied preference data; the server only stores and
copies it, never inspects it.  The literal `{}` used by the re-enqueue
paths corresponds to `([] : Prefs)`. -/
abbrev Prefs := List (String × String)

/-- The `Match` interface of the source. -/
structure Match where
  id : String
  peerA : String
  peerB : String
  startTime : Nat
  quality : Nat
deriving DecidableEq

/-- The `MatchData` payload sent with a `match:found` notification. -/
structure MatchData where
  peerId : String
  matchId : String
  quality : Nat
  startTime : Nat
deriving DecidableEq

/-- The `Peer` interface of the source (minus the raw socket handle and
the unused `isPremium` flag). -/
structure Peer where
  id : String
  prefs : Prefs
  blocked : List String
deriving DecidableEq

/-- Kinds of WebRTC signaling messages relayed by the broker. -/
inductive SigKind where
  | offer
  | answer
  | ice
deriving DecidableEq

/-- An outbound notification produced by an event handler.
`queueCount` is the `io.emit('queue:count', n)` broadcast; every other
constructor is directed at a single peer id. -/
inductive Out where
  | found (dst : String) (data : MatchData)
  | cancelled (dst : String)
  | skipped (dst : String)
  | reported (dst : String)
  | queueCount (n : Nat)
  | relay (k : SigKind) (dst : String) (src : String)
deriving DecidableEq

/-- Is the notification the queue-length broadcast (as opposed to a
notification directed at one particular peer)? -/
def Out.peerDirected : Out → Bool
  | .queueCount _ => false
  | _ => true

/-- The broker state: waiting queue, pairing table, block registry and
connection registry. -/
structure Broker where
  queue : List Peer
  matchTab : String → Option Match
  blocklists : String → List String
  connected : List String

/-- The empty broker state at server start. -/
def Broker.init : Broker :=
  { queue := [], matchTab := fun _ => none, blocklists := fun _ => [], connected := [] }

/-- Point update of the pairing table (`matches.set(k, v)`). -/
def mset (f : String → Option Match) (k : String) (v : Match) : String → Option Match :=
  fun x => if x = k then some v else f x

/-- Point deletion from the pairing table (`matches.delete(k)`). -/
def mdel (f : String → Option Match) (k : String) : String → Option Match :=
  fun x => if x = k then none else f x

/-- The peer id on the other side of a match, as computed by every
handler: `match.peerA === id ? match.peerB : match.peerA`. -/
def otherOf (m : Match) (pid : String) : String :=
  if m.peerA = pid then m.peerB else m.peerA

/-- `blocklists` update for `block:user` and `match:report`: ensure the
observer's set exists and add the target (`Set.add` is idempotent, hence
the membership guard). -/
def addBlock (bl : String → List String) (observer target : String) :
    String → List String :=
  fun x =>
    if x = observer then
      if (bl observer).contains target then bl observer else bl observer ++ [target]
    else bl x

/-- `removeFromQueue`: splice out the first queue entry with the given id
(`findIndex` + `splice(idx, 1)`). -/
def removeFromQueue : List Peer → String → List Peer
  | [], _ => []
  | p :: rest, i => if p.id = i then rest else p :: removeFromQueue rest i

/-- The candidate filter of `findMatchFor`, line for line:
`other.id !== peer.id && !matches.has(other.id) &&
 !peer.blocked.has(other.id) && !(blocklists.get(other.id)?.has(peer.id))`. -/
def eligibleB (st : Broker) (peer other : Peer) : Bool :=
  other.id != peer.id &&
  (st.matchTab other.id).isNone &&
  !(peer.blocked.contains other.id) &&
  !((st.blocklists other.id).contains peer.id)

/-- `findMatchFor`: first waiting peer passing the candidate filter. -/
def findMatchFor (st : Broker) (peer : Peer) : Option Peer :=
  st.queue.find? (eligibleB st peer)

/-- The conditional re-enqueue inside `cleanupMatch`: the abandoned peer
is appended (with empty preferences) only if it is not already waiting
and still has a live socket. -/
def requeueTarget (st : Broker) (other : String) : List Peer :=
  if (st.queue.find? (fun q => q.id == other)).isSome then st.queue
  else if st.connected.contains other then
    st.queue ++ [{ id := other, prefs := [], blocked := st.blocklists other }]
  else st.queue

/-- The body of `cleanupMatch` once a match for `pid` has been found. -/
def cleanupSome (st : Broker) (pid : String) (m : Match) : Broker × List Out :=
  let other := otherOf m pid
  if other = "" then
    ({ st with
        matchTab := mdel st.matchTab pid,
        queue := removeFromQueue st.queue pid }, [])
  else
    ({ st with
        matchTab := mdel (mdel st.matchTab other) pid,
        queue := removeFromQueue (requeueTarget st other) pid },
     [Out.cancelled other])

/-- `cleanupMatch(peerId)`: tear down any pairing `peerId` holds, notify
and possibly re-enqueue the abandoned peer, then drop `peerId` from the
queue.  The `if (otherPeerId)` truthiness guard of the source is the
`other ≠ ""` test. -/
def cleanupMatch (st : Broker) (pid : String) : Broker × List Out :=
  match st.matchTab pid with
  | none =>
      ({ st with queue := removeFromQueue st.queue pid }, [])
  | some m => cleanupSome st pid m

/-- The first half of the `match:search` handler: `cleanupMatch`, the
defensive `removeFromQueue`, the construction and enqueue of the fresh
`Peer` record, and the queue-length broadcast.  Returns the state the
matching scan runs on, the searcher's record, and the notifications so
far. -/
def preScan (st : Broker) (sid : String) (prefs : Prefs) :
    Broker × Peer × List Out :=
  let c := cleanupMatch st sid
  let st1 := c.1
  let peer : Peer := { id := sid, prefs := prefs, blocked := st1.blocklists sid }
  let q2 := removeFromQueue st1.queue sid ++ [peer]
  ({ st1 with queue := q2 }, peer, c.2 ++ [Out.queueCount q2.length])

/-- The Pairing constructed by a successful scan:
`match_${Date.now()}_${peer.id}_${matchPeer.id}` with fixed quality 1. -/
def mkMatch (now : Nat) (a b : String) : Match :=
  { id := "match_" ++ toString now ++ "_" ++ a ++ "_" ++ b,
    peerA := a, peerB := b, startTime := now, quality := 1 }

/-- The full `match:search` handler. -/
def searchStep (st : Broker) (sid : String) (prefs : Prefs) (now : Nat) :
    Broker × List Out :=
  let p := preScan st sid prefs
  let st2 := p.1
  let peer := p.2.1
  let outs := p.2.2
  match findMatchFor st2 peer with
  | none => (st2, outs)
  | some mp =>
      let q3 := removeFromQueue (removeFromQueue st2.queue sid) mp.id
      let m := mkMatch now sid mp.id
      ({ st2 with
          queue := q3,
          matchTab := mset (mset st2.matchTab sid m) mp.id m },
       outs ++
         [Out.queueCount q3.length,
          Out.found sid { peerId := mp.id, matchId := m.id, quality := 1, startTime := now },
          Out.found mp.id { peerId := sid, matchId := m.id, quality := 1, startTime := now }])

/-- The `match:cancel` handler: `cleanupMatch`, a second defensive
`removeFromQueue`, and the queue-length broadcast. -/
def cancelStep (st : Broker) (sid : String) : Broker × List Out :=
  let c := cleanupMatch st sid
  let q := removeFromQueue c.1.queue sid
  ({ c.1 with queue := q }, c.2 ++ [Out.queueCount q.length])

/-- The `disconnect` handler: socket.io removes the socket from the
namespace registry before the handler runs, then the handler body is
identical to `match:cancel`. -/
def disconnectStep (st : Broker) (sid : String) : Broker × List Out :=
  cancelStep { st with connected := st.connected.erase sid } sid

/-- Shared re-enqueue step of `match:skip` / `match:report`: push a fresh
record with empty preferences if the id still has a live socket
(`io.sockets.sockets.get(id)`).  No queue-membership check is made. -/
def requeueIfConnected (st : Broker) (i : String) : Broker :=
  if st.connected.contains i then
    { st with queue := st.queue ++ [{ id := i, prefs := [], blocked := st.blocklists i }] }
  else st

/-- The `match:skip` handler: with no active match it does nothing at
all; otherwise it deletes both pairing entries, notifies the peer, tries
to re-enqueue both sides and broadcasts the queue length. -/
def skipSome (st : Broker) (sid : String) (m : Match) : Broker × List Out :=
  let other := otherOf m sid
  let st1 := { st with matchTab := mdel (mdel st.matchTab sid) other }
  let st2 := requeueIfConnected (requeueIfConnected st1 sid) other
  (st2, [Out.skipped other, Out.queueCount st2.queue.length])

def skipStep (st : Broker) (sid : String) : Broker × List Out :=
  match st.matchTab sid with
  | none => (st, [])
  | some m => skipSome st sid m

/-- The `match:report` handler: always records the reported id in the
reporter's blocklist; if a match exists, deletes both sides and notifies
the peer; then unconditionally re-enqueues the reporter (if connected)
and broadcasts the queue length. -/
def reportSome (st1 : Broker) (sid : String) (m : Match) : Broker × List Out :=
  let other := otherOf m sid
  let st2 := { st1 with matchTab := mdel (mdel st1.matchTab sid) other }
  let st3 := requeueIfConnected st2 sid
  (st3, [Out.reported other, Out.queueCount st3.queue.length])

def reportStep (st : Broker) (sid target : String) : Broker × List Out :=
  let st1 := { st with blocklists := addBlock st.blocklists sid target }
  match st1.matchTab sid with
  | some m => reportSome st1 sid m
  | none =>
      let st3 := requeueIfConnected st1 sid
      (st3, [Out.queueCount st3.queue.length])

/-- The `block:user` handler: record the block, nothing else. -/
def blockStep (st : Broker) (sid target : String) : Broker × List Out :=
  ({ st with blocklists := addBlock st.blocklists sid target }, [])

/-- A `webrtc:offer` / `webrtc:answer` / `webrtc:ice-candidate` handler:
drop the message when the payload body or target id is missing (or the
target id is the empty string, which is falsy in JS), otherwise forward
it; broker state is untouched. -/
def signalOuts (src : String) (k : SigKind) (hasPayload : Bool) (dst : Option String) :
    List Out :=
  if hasPayload && dst.getD "" != "" then [Out.relay k (dst.getD "") src] else []

/-- The inbound events the broker reacts to.  `connect` is the transport
registering a fresh socket; every other event originates from the named
connected socket. -/
inductive Event where
  | connect (id : String)
  | search (id : String) (prefs : Prefs) (now : Nat)
  | cancel (id : String)
  | skip (id : String)
  | report (id : String) (target : String)
  | disconnect (id : String)
  | block (id : String) (target : String)
  | signal (id : String) (k : SigKind) (hasPayload : Bool) (dst : Option String)
deriving DecidableEq

/-- Dispatch an event to its handler, returning the new broker state and
the notifications emitted while handling it. -/
def stepOut (st : Broker) : Event → Broker × List Out
  | .connect i => ({ st with connected := st.connected ++ [i] }, [])
  | .search i prefs now => searchStep st i prefs now
  | .cancel i => cancelStep st i
  | .skip i => skipStep st i
  | .report i t => reportStep st i t
  | .disconnect i => disconnectStep st i
  | .block i t => blockStep st i t
  | .signal i k hp d => (st, signalOuts i k hp d)

/-- The state after handling one event. -/
def stepB (st : Broker) (e : Event) : Broker := (stepOut st e).1

/-- Run a list of events from a state. -/
def run (st : Broker) : List Event → Broker
  | [] => st
  | e :: es => run (stepB st e) es

/-- Transport-level side conditions under which an event can actually
occur: a `connect` carries a fresh id (socket.io ids are unique among
live connections and never the empty string), every other event is
delivered by a handler registered on a currently connected socket. -/
def allowedB (st : Broker) : Event → Bool
  | .connect i => !(st.connected.contains i) && i != ""
  | .search i _ _ => st.connected.contains i
  | .cancel i => st.connected.contains i
  | .skip i => st.connected.contains i
  | .report i _ => st.connected.contains i
  | .disconnect i => st.connected.contains i
  | .block i _ => st.connected.contains i
  | .signal i _ _ _ => st.connected.contains i

/-- `ReachFrom a b`: `b` arises from `a` by some sequence of allowed
events. -/
inductive ReachFrom : Broker → Broker → Prop where
  | refl (b : Broker) : ReachFrom b b
  | tail {a b : Broker} {e : Event} :
      ReachFrom a b → allowedB b e = true → ReachFrom a (stepB b e)

/-- A broker state reachable from the empty state. -/
def Reachable (b : Broker) : Prop := ReachFrom Broker.init b

/-- Does every event of an event list satisfy the transport side
conditions when it is reached? -/
def allowedRun (st : Broker) : List Event → Bool
  | [] => true
  | e :: es => allowedB st e && allowedRun (stepB st e) es

theorem reachFrom_run (a : Broker) :
    ∀ (evs : List Event) (b : Broker), ReachFrom a b → allowedRun b evs = true →
      ReachFrom a (run b evs) := by
  intro evs
  induction evs with
  | nil => intro b hb _; exact hb
  | cons e es ih =>
      intro b hb h
      rw [allowedRun, Bool.and_eq_true] at h
      exact ih (stepB b e) (ReachFrom.tail hb h.1) h.2

theorem reachable_run (evs : List Event) (h : allowedRun Broker.init evs = true) :
    Reachable (run Broker.init evs) :=
  reachFrom_run Broker.init evs Broker.init (ReachFrom.refl _) h

/-! ### Basic lemmas about the state components -/

@[simp]
theorem mset_same (f : String → Option Match) (k : String) (v : Match) :
    mset f k v k = some v := by simp [mset]

theorem mset_other {f : String → Option Match} {k x : String} {v : Match}
    (h : x ≠ k) : mset f k v x = f x := by simp [mset, h]

@[simp]
theorem mdel_same (f : String → Option Match) (k : String) : mdel f k k = none := by
  simp [mdel]

theorem mdel_other {f : String → Option Match} {k x : String} (h : x ≠ k) :
    mdel f k x = f x := by simp [mdel, h]

theorem mdel_eq_some {f : String → Option Match} {k x : String} {m : Match}
    (h : mdel f k x = some m) : x ≠ k ∧ f x = some m := by
  by_cases hx : x = k
  · subst hx; simp [mdel] at h
  · exact ⟨hx, by rwa [mdel_other hx] at h⟩

theorem addBlock_mono {bl : String → List String} {a b : String}
    (observer target : String) (h : b ∈ bl a) :
    b ∈ addBlock bl observer target a := by
  simp only [addBlock]
  by_cases ha : a = observer
  · subst ha
    rw [if_pos rfl]
    by_cases hc : (bl a).contains target = true
    · rw [if_pos hc]; exact h
    · rw [if_neg hc]; exact List.mem_append_left _ h
  · rw [if_neg ha]; exact h

theorem addBlock_self (bl : String → List String) (observer target : String) :
    target ∈ addBlock bl observer target observer := by
  simp only [addBlock, if_true]
  by_cases hc : (bl observer).contains target = true
  · rw [if_pos hc]; simpa using hc
  · rw [if_neg hc]; exact List.mem_append_right _ (List.mem_singleton.mpr rfl)

theorem addBlock_other (bl : String → List String) {observer x : String}
    (target : String) (h : x ≠ observer) : addBlock bl observer target x = bl x := by
  simp [addBlock, h]

/-! ### Lemmas about `removeFromQueue` -/

theorem mem_removeFromQueue {q : List Peer} {i : String} {x : Peer}
    (h : x ∈ removeFromQueue q i) : x ∈ q := by
  induction q with
  | nil => simp [removeFromQueue] at h
  | cons p rest ih =>
      rw [removeFromQueue] at h
      by_cases hp : p.id = i
      · rw [if_pos hp] at h; exact List.mem_cons_of_mem _ h
      · rw [if_neg hp] at h
        rcases List.mem_cons.mp h with h | h
        · exact h ▸ List.mem_cons_self _ _
        · exact List.mem_cons_of_mem _ (ih h)

theorem removeFromQueue_of_forall_ne {q : List Peer} {i : String}
    (h : ∀ x ∈ q, x.id ≠ i) : removeFromQueue q i = q := by
  induction q with
  | nil => rfl
  | cons p rest ih =>
      rw [removeFromQueue, if_neg (h p (List.mem_cons_self _ _))]
      rw [ih (fun x hx => h x (List.mem_cons_of_mem _ hx))]

theorem removeFromQueue_map_subset {q : List Peer} {i : String} {a : String}
    (h : a ∈ (removeFromQueue q i).map Peer.id) : a ∈ q.map Peer.id := by
  rcases List.mem_map.mp h with ⟨x, hx, rfl⟩
  exact List.mem_map_of_mem _ (mem_removeFromQueue hx)

theorem removeFromQueue_nodup {q : List Peer} {i : String}
    (h : (q.map Peer.id).Nodup) : ((removeFromQueue q i).map Peer.id).Nodup := by
  induction q with
  | nil => simp [removeFromQueue]
  | cons p rest ih =>
      rw [List.map_cons, List.nodup_cons] at h
      rw [removeFromQueue]
      by_cases hp : p.id = i
      · rw [if_pos hp]; exact h.2
      · rw [if_neg hp, List.map_cons, List.nodup_cons]
        exact ⟨fun hcon => h.1 (removeFromQueue_map_subset hcon), ih h.2⟩

theorem removeFromQueue_ne {q : List Peer} {i : String}
    (h : (q.map Peer.id).Nodup) :
    ∀ x ∈ removeFromQueue q i, x.id ≠ i := by
  induction q with
  | nil => intro x hx; simp [removeFromQueue] at hx
  | cons p rest ih =>
      rw [List.map_cons, List.nodup_cons] at h
      intro x hx
      rw [removeFromQueue] at hx
      by_cases hp : p.id = i
      · rw [if_pos hp] at hx
        intro hxi
        exact h.1 (hp ▸ hxi ▸ List.mem_map_of_mem Peer.id hx)
      · rw [if_neg hp] at hx
        rcases List.mem_cons.mp hx with rfl | hx
        · exact hp
        · exact ih h.2 x hx

theorem countP_removeFromQueue_le {q : List Peer} {i j : String} :
    (removeFromQueue q i).countP (fun x => x.id == j) ≤
      q.countP (fun x => x.id == j) := by
  induction q with
  | nil => simp [removeFromQueue]
  | cons p rest ih =>
      rw [removeFromQueue]
      by_cases hp : p.id = i
      · rw [if_pos hp, List.countP_cons]
        exact Nat.le_add_right _ _
      · rw [if_neg hp, List.countP_cons, List.countP_cons]
        exact Nat.add_le_add_right ih _

/-! ### `find?` returns the first element satisfying the predicate -/

theorem find?_first {α : Type} (p : α → Bool) :
    ∀ (l : List α) (a : α), l.find? p = some a →
      ∃ l1 l2, l = l1 ++ a :: l2 ∧ p a = true ∧ ∀ x ∈ l1, p x = false := by
  intro l
  induction l with
  | nil => intro a h; simp [List.find?] at h
  | cons b t ih =>
      intro a h
      by_cases hb : p b = true
      · rw [List.find?_cons_of_pos _ hb] at h
        cases h
        exact ⟨[], t, rfl, hb, by simp⟩
      · rw [List.find?_cons_of_neg _ (by simpa using hb)] at h
        rcases ih a h with ⟨l1, l2, heq, hpa, hprev⟩
        refine ⟨b :: l1, l2, by simp [heq], hpa, ?_⟩
        intro x hx
        rcases List.mem_cons.mp hx with rfl | hx
        · simpa using hb
        · exact hprev x hx

/-! ### The pairing-table symmetry predicate and its preservation lemmas -/

/-- Symmetry of a pairing table: every key is one of its match's two
participants, both participants are keys bound to the same match, and the
participants are distinct. -/
def PairSym (f : String → Option Match) : Prop :=
  ∀ a m, f a = some m →
    (m.peerA = a ∨ m.peerB = a) ∧
      f m.peerA = some m ∧ f m.peerB = some m ∧ m.peerA ≠ m.peerB

theorem otherOf_cases (m : Match) (pid : String)
    (hmem : m.peerA = pid ∨ m.peerB = pid) (hne : m.peerA ≠ m.peerB) :
    (m.peerA = pid ∧ otherOf m pid = m.peerB ∧ otherOf m pid ≠ pid) ∨
    (m.peerB = pid ∧ otherOf m pid = m.peerA ∧ otherOf m pid ≠ pid) := by
  unfold otherOf
  by_cases hA : m.peerA = pid
  · refine Or.inl ⟨hA, by rw [if_pos hA], ?_⟩
    rw [if_pos hA]
    exact fun hc => hne (hA.trans hc.symm)
  · rcases hmem with h | h
    · exact absurd h hA
    · refine Or.inr ⟨h, by rw [if_neg hA], ?_⟩
      rw [if_neg hA]
      exact hA

/-- The two participants of `p`'s match are exactly `p` and
`otherOf m p`. -/
theorem peers_eq_of_pairSym {f : String → Option Match} {p : String} {m : Match}
    (hf : PairSym f) (hm : f p = some m) :
    ∀ x, (m.peerA = x ∨ m.peerB = x) → x = p ∨ x = otherOf m p := by
  obtain ⟨hmem, -, -, hne⟩ := hf p m hm
  intro x hx
  rcases otherOf_cases m p hmem hne with ⟨hA, hoB, -⟩ | ⟨hB, hoA, -⟩
  · rcases hx with rfl | rfl
    · exact Or.inl hA
    · exact Or.inr hoB.symm
  · rcases hx with rfl | rfl
    · exact Or.inr hoA.symm
    · exact Or.inl hB

/-- Deleting both sides of a pairing preserves symmetry. -/
theorem pairSym_delete {f : String → Option Match} {p : String} {m : Match}
    (hf : PairSym f) (hm : f p = some m) :
    PairSym (mdel (mdel f (otherOf m p)) p) := by
  intro a m' ha
  obtain ⟨hap, ha1⟩ := mdel_eq_some ha
  obtain ⟨hao, ha2⟩ := mdel_eq_some ha1
  obtain ⟨hmem, hA, hB, hne⟩ := hf a m' ha2
  have hkey : ∀ x, (m'.peerA = x ∨ m'.peerB = x) → f x = some m' →
      mdel (mdel f (otherOf m p)) p x = some m' := by
    intro x hx hfx
    have hxp : x ≠ p := by
      rintro rfl
      have hmm : m' = m := by rw [hfx] at hm; exact (Option.some.injEq _ _).mp hm
      subst hmm
      rcases peers_eq_of_pairSym hf hm a hmem with h | h
      · exact hap h
      · exact hao h
    have hxo : x ≠ otherOf m p := by
      rintro rfl
      obtain ⟨hmem0, hA0, hB0, hne0⟩ := hf p m hm
      have hfo : f (otherOf m p) = some m := by
        rcases otherOf_cases m p hmem0 hne0 with ⟨-, ho, -⟩ | ⟨-, ho, -⟩
        · rw [ho]; exact hB0
        · rw [ho]; exact hA0
      have hmm : m' = m := by rw [hfx] at hfo; exact (Option.some.injEq _ _).mp hfo
      subst hmm
      rcases peers_eq_of_pairSym hf hm a hmem with h | h
      · exact hap h
      · exact hao h
    rw [mdel_other hxp, mdel_other hxo]
    exact hfx
  exact ⟨hmem, hkey m'.peerA (Or.inl rfl) hA, hkey m'.peerB (Or.inr rfl) hB, hne⟩

/-- Inserting a fresh pairing under both of its participant keys
preserves symmetry. -/
theorem pairSym_insert {f : String → Option Match} {a b : String} {m : Match}
    (hf : PairSym f) (hfa : f a = none) (hfb : f b = none) (hab : a ≠ b)
    (hma : m.peerA = a) (hmb : m.peerB = b) :
    PairSym (mset (mset f a m) b m) := by
  have hAB : m.peerA ≠ m.peerB := by rw [hma, hmb]; exact hab
  intro x m' hx
  by_cases hxb : x = b
  · subst hxb
    rw [mset_same] at hx
    obtain rfl : m = m' := Option.some.inj hx
    refine ⟨Or.inr hmb, ?_, ?_, hAB⟩
    · rw [hma, mset_other hab, mset_same]
    · rw [hmb, mset_same]
  · rw [mset_other hxb] at hx
    by_cases hxa : x = a
    · subst hxa
      rw [mset_same] at hx
      obtain rfl : m = m' := Option.some.inj hx
      refine ⟨Or.inl hma, ?_, ?_, hAB⟩
      · rw [hma, mset_other hab, mset_same]
      · rw [hmb, mset_same]
    · rw [mset_other hxa] at hx
      obtain ⟨hmem, hA, hB, hne⟩ := hf x m' hx
      have hkey : ∀ y, f y = some m' → mset (mset f a m) b m y = some m' := by
        intro y hy
        have hya : y ≠ a := fun hc => by rw [hc, hfa] at hy; cases hy
        have hyb : y ≠ b := fun hc => by rw [hc, hfb] at hy; cases hy
        rw [mset_other hyb, mset_other hya]
        exact hy
      exact ⟨hmem, hkey _ hA, hkey _ hB, hne⟩

theorem mdel_none {f : String → Option Match} {k x : String} (h : f x = none) :
    mdel f k x = none := by
  by_cases hx : x = k
  · subst hx; simp
  · rw [mdel_other hx]; exact h

theorem nodup_append_singleton {q : List Peer} {p : Peer}
    (h : (q.map Peer.id).Nodup) (hp : ∀ x ∈ q, x.id ≠ p.id) :
    ((q ++ [p]).map Peer.id).Nodup := by
  rw [List.map_append, List.map_singleton]
  refine List.Nodup.append h (List.nodup_singleton _) ?_
  intro a ha hb
  rcases List.mem_map.mp ha with ⟨x, hx, rfl⟩
  exact hp x hx (List.mem_singleton.mp hb)

/-! ### Unfolding lemmas for the handlers -/

theorem cleanupMatch_none {st : Broker} {pid : String}
    (hm : st.matchTab pid = none) :
    cleanupMatch st pid = ({ st with queue := removeFromQueue st.queue pid }, []) := by
  unfold cleanupMatch; rw [hm]

theorem cleanupMatch_some {st : Broker} {pid : String} {m : Match}
    (hm : st.matchTab pid = some m) :
    cleanupMatch st pid = cleanupSome st pid m := by
  unfold cleanupMatch; rw [hm]

theorem cleanupSome_eq {st : Broker} {pid : String} {m : Match}
    (hne : otherOf m pid ≠ "") :
    cleanupSome st pid m =
      ({ st with
          matchTab := mdel (mdel st.matchTab (otherOf m pid)) pid,
          queue := removeFromQueue (requeueTarget st (otherOf m pid)) pid },
       [Out.cancelled (otherOf m pid)]) := by
  simp only [cleanupSome]
  rw [if_neg hne]

theorem requeueTarget_cases (st : Broker) (other : String) :
    requeueTarget st other = st.queue ∨
      (requeueTarget st other =
          st.queue ++ [{ id := other, prefs := [], blocked := st.blocklists other }] ∧
        st.connected.contains other = true ∧
        ∀ x ∈ st.queue, x.id ≠ other) := by
  unfold requeueTarget
  by_cases h1 : (st.queue.find? (fun q => q.id == other)).isSome = true
  · left; rw [if_pos h1]
  · rw [if_neg h1]
    by_cases h2 : st.connected.contains other = true
    · right
      have hnone : st.queue.find? (fun q => q.id == other) = none :=
        Option.not_isSome_iff_eq_none.mp h1
      have hall := List.find?_eq_none.mp hnone
      refine ⟨by rw [if_pos h2], h2, ?_⟩
      intro x hx hxe
      exact hall x hx (by simp [hxe])
    · left; rw [if_neg h2]

theorem requeueIfConnected_cases (st : Broker) (i : String) :
    (st.connected.contains i = true ∧
       requeueIfConnected st i =
         { st with
             queue := st.queue ++ [{ id := i, prefs := [], blocked := st.blocklists i }] }) ∨
    (requeueIfConnected st i = st) := by
  unfold requeueIfConnected
  by_cases h : st.connected.contains i = true
  · exact Or.inl ⟨h, by rw [if_pos h]⟩
  · exact Or.inr (by rw [if_neg h])

theorem requeueIfConnected_matchTab (st : Broker) (i : String) :
    (requeueIfConnected st i).matchTab = st.matchTab := by
  unfold requeueIfConnected; split <;> rfl

theorem requeueIfConnected_connected (st : Broker) (i : String) :
    (requeueIfConnected st i).connected = st.connected := by
  unfold requeueIfConnected; split <;> rfl

theorem requeueIfConnected_blocklists (st : Broker) (i : String) :
    (requeueIfConnected st i).blocklists = st.blocklists := by
  unfold requeueIfConnected; split <;> rfl

theorem searchStep_of_none {st : Broker} {sid : String} {prefs : Prefs} {now : Nat}
    (hf : findMatchFor (preScan st sid prefs).1 (preScan st sid prefs).2.1 = none) :
    searchStep st sid prefs now = ((preScan st sid prefs).1, (preScan st sid prefs).2.2) := by
  simp only [searchStep]
  rw [hf]

theorem searchStep_of_some {st : Broker} {sid : String} {prefs : Prefs} {now : Nat}
    {mp : Peer}
    (hf : findMatchFor (preScan st sid prefs).1 (preScan st sid prefs).2.1 = some mp) :
    searchStep st sid prefs now =
      ({ (preScan st sid prefs).1 with
          queue := removeFromQueue
            (removeFromQueue (preScan st sid prefs).1.queue sid) mp.id,
          matchTab := mset (mset (preScan st sid prefs).1.matchTab sid
            (mkMatch now sid mp.id)) mp.id (mkMatch now sid mp.id) },
       (preScan st sid prefs).2.2 ++
         [Out.queueCount (removeFromQueue
             (removeFromQueue (preScan st sid prefs).1.queue sid) mp.id).length,
          Out.found sid
            { peerId := mp.id, matchId := (mkMatch now sid mp.id).id,
              quality := 1, startTime := now },
          Out.found mp.id
            { peerId := sid, matchId := (mkMatch now sid mp.id).id,
              quality := 1, startTime := now }]) := by
  simp only [searchStep]
  rw [hf]

/-! ### The broker invariants -/

/-- Every live connection id is a nonempty string (socket.io never
assigns the empty id). -/
def ConnNE (st : Broker) : Prop := ∀ c ∈ st.connected, c ≠ ""

/-- Every queued participant id is nonempty. -/
def QueueNE (st : Broker) : Prop := ∀ x ∈ st.queue, x.id ≠ ""

/-- Both participants of every stored pairing have nonempty ids. -/
def MatchNE (st : Broker) : Prop :=
  ∀ a m, st.matchTab a = some m → m.peerA ≠ "" ∧ m.peerB ≠ ""

/-- The invariants needed for pairing-table symmetry, preserved by every
event (including `match:report`). -/
structure SymInv (st : Broker) : Prop where
  connNE : ConnNE st
  queueNE : QueueNE st
  matchNE : MatchNE st
  sym : PairSym st.matchTab

/-- If `pid` holds a pairing in a symmetric table with nonempty ids, the
computed peer id is nonempty and differs from `pid`. -/
theorem otherOf_ne {st : Broker} (h : SymInv st) {pid : String} {m : Match}
    (hm : st.matchTab pid = some m) :
    otherOf m pid ≠ "" ∧ otherOf m pid ≠ pid := by
  obtain ⟨hmem, -, -, hne⟩ := h.sym pid m hm
  have hNE := h.matchNE pid m hm
  rcases otherOf_cases m pid hmem hne with ⟨-, ho, hop⟩ | ⟨-, ho, hop⟩
  · exact ⟨ho ▸ hNE.2, hop⟩
  · exact ⟨ho ▸ hNE.1, hop⟩

theorem symInv_cleanupMatch {st : Broker} (h : SymInv st) (pid : String) :
    SymInv (cleanupMatch st pid).1 := by
  cases hm : st.matchTab pid with
  | none =>
      rw [cleanupMatch_none hm]
      exact {
        connNE := h.connNE
        queueNE := fun x hx => h.queueNE x (mem_removeFromQueue hx)
        matchNE := h.matchNE
        sym := h.sym }
  | some m =>
      rw [cleanupMatch_some hm, cleanupSome_eq (otherOf_ne h hm).1]
      refine {
        connNE := h.connNE
        queueNE := ?_
        matchNE := ?_
        sym := pairSym_delete h.sym hm }
      · intro x hx
        have hx1 := mem_removeFromQueue hx
        rcases requeueTarget_cases st (otherOf m pid) with hq | ⟨hq, -, -⟩
        · rw [hq] at hx1; exact h.queueNE x hx1
        · rw [hq] at hx1
          rcases List.mem_append.mp hx1 with hx2 | hx2
          · exact h.queueNE x hx2
          · rw [List.mem_singleton.mp hx2]
            exact (otherOf_ne h hm).1
      · intro a m' ha
        exact h.matchNE a m' (mdel_eq_some (mdel_eq_some ha).2).2

theorem queue_cleanupMatch_nodup {st : Broker} (h : SymInv st)
    (hnd : (st.queue.map Peer.id).Nodup) (pid : String) :
    ((cleanupMatch st pid).1.queue.map Peer.id).Nodup := by
  cases hm : st.matchTab pid with
  | none =>
      rw [cleanupMatch_none hm]
      exact removeFromQueue_nodup hnd
  | some m =>
      rw [cleanupMatch_some hm, cleanupSome_eq (otherOf_ne h hm).1]
      apply removeFromQueue_nodup
      rcases requeueTarget_cases st (otherOf m pid) with hq | ⟨hq, -, hfresh⟩
      · rw [hq]; exact hnd
      · rw [hq]; exact nodup_append_singleton hnd hfresh

theorem mutex_cleanupMatch {st : Broker} (h : SymInv st)
    (hmx : ∀ x ∈ st.queue, st.matchTab x.id = none) (pid : String) :
    ∀ x ∈ (cleanupMatch st pid).1.queue,
      (cleanupMatch st pid).1.matchTab x.id = none := by
  cases hm : st.matchTab pid with
  | none =>
      rw [cleanupMatch_none hm]
      exact fun x hx => hmx x (mem_removeFromQueue hx)
  | some m =>
      rw [cleanupMatch_some hm, cleanupSome_eq (otherOf_ne h hm).1]
      intro x hx
      have hx1 := mem_removeFromQueue hx
      rcases requeueTarget_cases st (otherOf m pid) with hq | ⟨hq, -, -⟩
      · rw [hq] at hx1
        exact mdel_none (mdel_none (hmx x hx1))
      · rw [hq] at hx1
        rcases List.mem_append.mp hx1 with hx2 | hx2
        · exact mdel_none (mdel_none (hmx x hx2))
        · rw [List.mem_singleton.mp hx2]
          show mdel (mdel st.matchTab (otherOf m pid)) pid (otherOf m pid) = none
          rw [mdel_other (otherOf_ne h hm).2, mdel_same]

theorem mset_eq_some {f : String → Option Match} {k x : String} {v m' : Match}
    (h : mset f k v x = some m') :
    (x = k ∧ m' = v) ∨ (x ≠ k ∧ f x = some m') := by
  by_cases hx : x = k
  · subst hx; rw [mset_same] at h; exact Or.inl ⟨rfl, (Option.some.inj h).symm⟩
  · rw [mset_other hx] at h; exact Or.inr ⟨hx, h⟩

theorem mdel_comm (f : String → Option Match) (a b : String) :
    mdel (mdel f a) b = mdel (mdel f b) a := by
  funext x
  by_cases hxa : x = a <;> by_cases hxb : x = b <;> simp [mdel, hxa, hxb]

theorem cleanupMatch_matchTab_self (st : Broker) (pid : String) :
    (cleanupMatch st pid).1.matchTab pid = none := by
  cases hm : st.matchTab pid with
  | none => rw [cleanupMatch_none hm]; exact hm
  | some m =>
      rw [cleanupMatch_some hm]
      simp only [cleanupSome]
      split
      · exact mdel_same _ _
      · exact mdel_same _ _

theorem cleanupMatch_blocklists (st : Broker) (pid : String) :
    (cleanupMatch st pid).1.blocklists = st.blocklists := by
  cases hm : st.matchTab pid with
  | none => rw [cleanupMatch_none hm]
  | some m =>
      rw [cleanupMatch_some hm]
      simp only [cleanupSome]
      split <;> rfl

theorem cleanupMatch_connected (st : Broker) (pid : String) :
    (cleanupMatch st pid).1.connected = st.connected := by
  cases hm : st.matchTab pid with
  | none => rw [cleanupMatch_none hm]
  | some m =>
      rw [cleanupMatch_some hm]
      simp only [cleanupSome]
      split <;> rfl

theorem skipStep_none {st : Broker} {sid : String} (hm : st.matchTab sid = none) :
    skipStep st sid = (st, []) := by
  unfold skipStep; rw [hm]

theorem skipStep_some {st : Broker} {sid : String} {m : Match}
    (hm : st.matchTab sid = some m) :
    skipStep st sid = skipSome st sid m := by
  unfold skipStep; rw [hm]

theorem reportStep_none {st : Broker} {sid target : String}
    (hm : st.matchTab sid = none) :
    reportStep st sid target =
      (requeueIfConnected { st with blocklists := addBlock st.blocklists sid target } sid,
       [Out.queueCount
          (requeueIfConnected { st with blocklists := addBlock st.blocklists sid target }
            sid).queue.length]) := by
  simp only [reportStep]
  rw [hm]

theorem reportStep_some {st : Broker} {sid target : String} {m : Match}
    (hm : st.matchTab sid = some m) :
    reportStep st sid target =
      reportSome { st with blocklists := addBlock st.blocklists sid target } sid m := by
  simp only [reportStep]
  rw [hm]

/-- Unpack the boolean candidate filter into its four propositional
conjuncts. -/
theorem eligibleB_spec {st : Broker} {peer other : Peer}
    (h : eligibleB st peer other = true) :
    other.id ≠ peer.id ∧ st.matchTab other.id = none ∧
      other.id ∉ peer.blocked ∧ peer.id ∉ st.blocklists other.id := by
  simp only [eligibleB, Bool.and_eq_true, bne_iff_ne, Bool.not_eq_true,
    Option.isNone_iff_eq_none] at h
  obtain ⟨⟨⟨h1, h2⟩, h3⟩, h4⟩ := h
  exact ⟨h1, h2, by simpa using h3, by simpa using h4⟩

theorem symInv_preScan {st : Broker} (h : SymInv st) {sid : String}
    (hsid : sid ≠ "") (prefs : Prefs) : SymInv (preScan st sid prefs).1 := by
  simp only [preScan]
  have h1 := symInv_cleanupMatch h sid
  refine {
    connNE := h1.connNE
    queueNE := ?_
    matchNE := h1.matchNE
    sym := h1.sym }
  intro x hx
  rcases List.mem_append.mp hx with hx1 | hx1
  · exact h1.queueNE x (mem_removeFromQueue hx1)
  · rw [List.mem_singleton.mp hx1]; exact hsid

theorem nodup_preScan {st : Broker} (h : SymInv st)
    (hnd : (st.queue.map Peer.id).Nodup) (sid : String) (prefs : Prefs) :
    ((preScan st sid prefs).1.queue.map Peer.id).Nodup := by
  simp only [preScan]
  exact nodup_append_singleton
    (removeFromQueue_nodup (queue_cleanupMatch_nodup h hnd sid))
    (removeFromQueue_ne (queue_cleanupMatch_nodup h hnd sid))

theorem mutex_preScan {st : Broker} (h : SymInv st)
    (hmx : ∀ x ∈ st.queue, st.matchTab x.id = none) (sid : String) (prefs : Prefs) :
    ∀ x ∈ (preScan st sid prefs).1.queue,
      (preScan st sid prefs).1.matchTab x.id = none := by
  simp only [preScan]
  intro x hx
  rcases List.mem_append.mp hx with hx1 | hx1
  · exact mutex_cleanupMatch h hmx sid x (mem_removeFromQueue hx1)
  · rw [List.mem_singleton.mp hx1]
    exact cleanupMatch_matchTab_self st sid

/-- The full broker invariant: the symmetry invariants together with
queue uniqueness and queue/table mutual exclusion. -/
structure BrokerInv (st : Broker) extends SymInv st : Prop where
  nodup : (st.queue.map Peer.id).Nodup
  mutex : ∀ x ∈ st.queue, st.matchTab x.id = none

theorem symInv_requeue {st : Broker} (h : SymInv st) (i : String) :
    SymInv (requeueIfConnected st i) := by
  rcases requeueIfConnected_cases st i with ⟨hconn, heq⟩ | heq
  · rw [heq]
    refine { connNE := h.connNE, matchNE := h.matchNE, sym := h.sym, queueNE := ?_ }
    intro x hx
    rcases List.mem_append.mp hx with hx1 | hx1
    · exact h.queueNE x hx1
    · rw [List.mem_singleton.mp hx1]
      exact h.connNE i (by simpa using hconn)
  · rw [heq]; exact h

theorem brokerInv_requeue {st : Broker} (h : BrokerInv st) {i : String}
    (hq : ∀ x ∈ st.queue, x.id ≠ i) (hmi : st.matchTab i = none) :
    BrokerInv (requeueIfConnected st i) := by
  rcases requeueIfConnected_cases st i with ⟨hconn, heq⟩ | heq
  · rw [heq]
    refine {
      connNE := h.connNE
      matchNE := h.matchNE
      sym := h.sym
      queueNE := ?_
      nodup := nodup_append_singleton h.nodup hq
      mutex := ?_ }
    · intro x hx
      rcases List.mem_append.mp hx with hx1 | hx1
      · exact h.queueNE x hx1
      · rw [List.mem_singleton.mp hx1]
        exact h.connNE i (by simpa using hconn)
    · intro x hx
      rcases List.mem_append.mp hx with hx1 | hx1
      · exact h.mutex x hx1
      · rw [List.mem_singleton.mp hx1]; exact hmi
  · rw [heq]; exact h

/-- A participant holding a pairing is not in the queue (consequence of
the mutual-exclusion field). -/
theorem not_queued_of_matched {st : Broker}
    (hmx : ∀ x ∈ st.queue, st.matchTab x.id = none) {i : String} {m : Match}
    (hm : st.matchTab i = some m) : ∀ x ∈ st.queue, x.id ≠ i := by
  intro x hx hxe
  have h0 := hmx x hx
  rw [hxe, hm] at h0
  cases h0

/-- The partner key of a held pairing is also bound, to the same match. -/
theorem matchTab_other {st : Broker} (h : SymInv st) {i : String} {m : Match}
    (hm : st.matchTab i = some m) : st.matchTab (otherOf m i) = some m := by
  obtain ⟨hmem, hA, hB, hne⟩ := h.sym i m hm
  rcases otherOf_cases m i hmem hne with ⟨-, ho, -⟩ | ⟨-, ho, -⟩
  · rw [ho]; exact hB
  · rw [ho]; exact hA

theorem symInv_skipSome {st : Broker} (h : SymInv st) {sid : String} {m : Match}
    (hm : st.matchTab sid = some m) : SymInv (skipSome st sid m).1 := by
  have h1 : SymInv { st with matchTab := mdel (mdel st.matchTab sid) (otherOf m sid) } := {
    connNE := h.connNE
    queueNE := h.queueNE
    matchNE := fun a m' ha => h.matchNE a m' (mdel_eq_some (mdel_eq_some ha).2).2
    sym := by rw [mdel_comm]; exact pairSym_delete h.sym hm }
  simp only [skipSome]
  exact symInv_requeue (symInv_requeue h1 sid) (otherOf m sid)

theorem brokerInv_skipSome {st : Broker} (h : BrokerInv st) {sid : String} {m : Match}
    (hm : st.matchTab sid = some m) : BrokerInv (skipSome st sid m).1 := by
  have hons := otherOf_ne h.toSymInv hm
  have h1 : BrokerInv { st with matchTab := mdel (mdel st.matchTab sid) (otherOf m sid) } := {
    connNE := h.connNE
    queueNE := h.queueNE
    matchNE := fun a m' ha => h.matchNE a m' (mdel_eq_some (mdel_eq_some ha).2).2
    sym := by rw [mdel_comm]; exact pairSym_delete h.sym hm
    nodup := h.nodup
    mutex := fun x hx => mdel_none (mdel_none (h.mutex x hx)) }
  have hq1 : ∀ x ∈ st.queue, x.id ≠ sid := not_queued_of_matched h.mutex hm
  have hm1 : ({ st with matchTab := mdel (mdel st.matchTab sid) (otherOf m sid) } :
      Broker).matchTab sid = none := by
    show mdel (mdel st.matchTab sid) (otherOf m sid) sid = none
    rw [mdel_other (fun hc => hons.2 hc.symm), mdel_same]
  have h2 := brokerInv_requeue h1 hq1 hm1
  have hq2 : ∀ x ∈ (requeueIfConnected
      { st with matchTab := mdel (mdel st.matchTab sid) (otherOf m sid) } sid).queue,
      x.id ≠ otherOf m sid := by
    have hqo : ∀ x ∈ st.queue, x.id ≠ otherOf m sid :=
      not_queued_of_matched h.mutex (matchTab_other h.toSymInv hm)
    rcases requeueIfConnected_cases
        { st with matchTab := mdel (mdel st.matchTab sid) (otherOf m sid) } sid with
      ⟨-, heq⟩ | heq
    · rw [heq]
      intro x hx
      rcases List.mem_append.mp hx with hx1 | hx1
      · exact hqo x hx1
      · rw [List.mem_singleton.mp hx1]
        exact fun hc => hons.2 hc.symm
    · rw [heq]; exact hqo
  have hm2 : (requeueIfConnected
      { st with matchTab := mdel (mdel st.matchTab sid) (otherOf m sid) } sid).matchTab
      (otherOf m sid) = none := by
    rw [requeueIfConnected_matchTab]
    show mdel (mdel st.matchTab sid) (otherOf m sid) (otherOf m sid) = none
    rw [mdel_same]
  simp only [skipSome]
  exact brokerInv_requeue h2 hq2 hm2

theorem symInv_skipStep {st : Broker} (h : SymInv st) (sid : String) :
    SymInv (skipStep st sid).1 := by
  cases hm : st.matchTab sid with
  | none => rw [skipStep_none hm]; exact h
  | some m => rw [skipStep_some hm]; exact symInv_skipSome h hm

theorem brokerInv_skipStep {st : Broker} (h : BrokerInv st) (sid : String) :
    BrokerInv (skipStep st sid).1 := by
  cases hm : st.matchTab sid with
  | none => rw [skipStep_none hm]; exact h
  | some m => rw [skipStep_some hm]; exact brokerInv_skipSome h hm

theorem symInv_reportSome {st1 : Broker} (h : SymInv st1) {sid : String} {m : Match}
    (hm : st1.matchTab sid = some m) : SymInv (reportSome st1 sid m).1 := by
  have h1 : SymInv { st1 with matchTab := mdel (mdel st1.matchTab sid) (otherOf m sid) } := {
    connNE := h.connNE
    queueNE := h.queueNE
    matchNE := fun a m' ha => h.matchNE a m' (mdel_eq_some (mdel_eq_some ha).2).2
    sym := by rw [mdel_comm]; exact pairSym_delete h.sym hm }
  simp only [reportSome]
  exact symInv_requeue h1 sid

theorem brokerInv_reportSome {st1 : Broker} (h : BrokerInv st1) {sid : String} {m : Match}
    (hm : st1.matchTab sid = some m) : BrokerInv (reportSome st1 sid m).1 := by
  have hons := otherOf_ne h.toSymInv hm
  have h1 : BrokerInv { st1 with matchTab := mdel (mdel st1.matchTab sid) (otherOf m sid) } := {
    connNE := h.connNE
    queueNE := h.queueNE
    matchNE := fun a m' ha => h.matchNE a m' (mdel_eq_some (mdel_eq_some ha).2).2
    sym := by rw [mdel_comm]; exact pairSym_delete h.sym hm
    nodup := h.nodup
    mutex := fun x hx => mdel_none (mdel_none (h.mutex x hx)) }
  have hq1 : ∀ x ∈ st1.queue, x.id ≠ sid := not_queued_of_matched h.mutex hm
  have hm1 : ({ st1 with matchTab := mdel (mdel st1.matchTab sid) (otherOf m sid) } :
      Broker).matchTab sid = none := by
    show mdel (mdel st1.matchTab sid) (otherOf m sid) sid = none
    rw [mdel_other (fun hc => hons.2 hc.symm), mdel_same]
  simp only [reportSome]
  exact brokerInv_requeue h1 hq1 hm1

/-- Transferring any of the invariants across a blocklist-only update is
free: none of them mention the block registry. -/
theorem symInv_blocklists {st : Broker} (h : SymInv st) (bl : String → List String) :
    SymInv { st with blocklists := bl } :=
  { connNE := h.connNE, queueNE := h.queueNE, matchNE := h.matchNE, sym := h.sym }

theorem brokerInv_blocklists {st : Broker} (h : BrokerInv st) (bl : String → List String) :
    BrokerInv { st with blocklists := bl } :=
  { connNE := h.connNE, queueNE := h.queueNE, matchNE := h.matchNE, sym := h.sym,
    nodup := h.nodup, mutex := h.mutex }

theorem symInv_reportStep {st : Broker} (h : SymInv st) (sid target : String) :
    SymInv (reportStep st sid target).1 := by
  have h1 := symInv_blocklists h (addBlock st.blocklists sid target)
  cases hm : st.matchTab sid with
  | none => rw [reportStep_none hm]; exact symInv_requeue h1 sid
  | some m => rw [reportStep_some hm]; exact symInv_reportSome h1 hm

/-- For the guarded system: a report issued while the reporter holds a
pairing preserves the full invariant. -/
theorem brokerInv_reportStep_of_matched {st : Broker} (h : BrokerInv st)
    {sid : String} (target : String) (hms : (st.matchTab sid).isSome = true) :
    BrokerInv (reportStep st sid target).1 := by
  have h1 := brokerInv_blocklists h (addBlock st.blocklists sid target)
  cases hm : st.matchTab sid with
  | none => rw [hm] at hms; cases hms
  | some m =>
      rw [reportStep_some hm]
      exact brokerInv_reportSome h1 hm

theorem symInv_searchStep {st : Broker} (h : SymInv st) {sid : String}
    (hsid : sid ≠ "") (prefs : Prefs) (now : Nat) :
    SymInv (searchStep st sid prefs now).1 := by
  have hS := symInv_preScan h hsid prefs
  cases hf : findMatchFor (preScan st sid prefs).1 (preScan st sid prefs).2.1 with
  | none => rw [searchStep_of_none hf]; exact hS
  | some mp =>
      rw [searchStep_of_some hf]
      have hguard := List.find?_some hf
      obtain ⟨hne1, hnone1, -, -⟩ := eligibleB_spec hguard
      have hne1' : mp.id ≠ sid := hne1
      have hself : (preScan st sid prefs).1.matchTab sid = none :=
        cleanupMatch_matchTab_self st sid
      have hmpq : mp ∈ (preScan st sid prefs).1.queue := List.mem_of_find?_eq_some hf
      refine {
        connNE := hS.connNE
        queueNE := fun x hx => hS.queueNE x (mem_removeFromQueue (mem_removeFromQueue hx))
        matchNE := ?_
        sym := pairSym_insert hS.sym hself hnone1 (fun hc => hne1' hc.symm) rfl rfl }
      intro a m' ha
      rcases mset_eq_some ha with ⟨-, rfl⟩ | ⟨-, ha2⟩
      · exact ⟨hsid, hS.queueNE mp hmpq⟩
      · rcases mset_eq_some ha2 with ⟨-, rfl⟩ | ⟨-, ha3⟩
        · exact ⟨hsid, hS.queueNE mp hmpq⟩
        · exact hS.matchNE a m' ha3

theorem brokerInv_searchStep {st : Broker} (h : BrokerInv st) {sid : String}
    (hsid : sid ≠ "") (prefs : Prefs) (now : Nat) :
    BrokerInv (searchStep st sid prefs now).1 := by
  have hS := symInv_preScan h.toSymInv hsid prefs
  have hN := nodup_preScan h.toSymInv h.nodup sid prefs
  have hM := mutex_preScan h.toSymInv h.mutex sid prefs
  cases hf : findMatchFor (preScan st sid prefs).1 (preScan st sid prefs).2.1 with
  | none =>
      rw [searchStep_of_none hf]
      exact { connNE := hS.connNE, queueNE := hS.queueNE, matchNE := hS.matchNE,
              sym := hS.sym, nodup := hN, mutex := hM }
  | some mp =>
      rw [searchStep_of_some hf]
      have hguard := List.find?_some hf
      obtain ⟨hne1, hnone1, -, -⟩ := eligibleB_spec hguard
      have hne1' : mp.id ≠ sid := hne1
      have hself : (preScan st sid prefs).1.matchTab sid = none :=
        cleanupMatch_matchTab_self st sid
      have hmpq : mp ∈ (preScan st sid prefs).1.queue := List.mem_of_find?_eq_some hf
      refine {
        connNE := hS.connNE
        queueNE := fun x hx => hS.queueNE x (mem_removeFromQueue (mem_removeFromQueue hx))
        matchNE := ?_
        sym := pairSym_insert hS.sym hself hnone1 (fun hc => hne1' hc.symm) rfl rfl
        nodup := removeFromQueue_nodup (removeFromQueue_nodup hN)
        mutex := ?_ }
      · intro a m' ha
        rcases mset_eq_some ha with ⟨-, rfl⟩ | ⟨-, ha2⟩
        · exact ⟨hsid, hS.queueNE mp hmpq⟩
        · rcases mset_eq_some ha2 with ⟨-, rfl⟩ | ⟨-, ha3⟩
          · exact ⟨hsid, hS.queueNE mp hmpq⟩
          · exact hS.matchNE a m' ha3
      · intro x hx
        have hx1 := mem_removeFromQueue hx
        have hxmp : x.id ≠ mp.id := removeFromQueue_ne (removeFromQueue_nodup hN) x hx
        have hxsid : x.id ≠ sid := removeFromQueue_ne hN x hx1
        show mset (mset (preScan st sid prefs).1.matchTab sid
          (mkMatch now sid mp.id)) mp.id (mkMatch now sid mp.id) x.id = none
        rw [mset_other hxmp, mset_other hxsid]
        exact hM x (mem_removeFromQueue hx1)

theorem symInv_cancelStep {st : Broker} (h : SymInv st) (sid : String) :
    SymInv (cancelStep st sid).1 := by
  simp only [cancelStep]
  have h1 := symInv_cleanupMatch h sid
  exact {
    connNE := h1.connNE
    queueNE := fun x hx => h1.queueNE x (mem_removeFromQueue hx)
    matchNE := h1.matchNE
    sym := h1.sym }

theorem brokerInv_cancelStep {st : Broker} (h : BrokerInv st) (sid : String) :
    BrokerInv (cancelStep st sid).1 := by
  simp only [cancelStep]
  have h1 := symInv_cleanupMatch h.toSymInv sid
  have h2 := queue_cleanupMatch_nodup h.toSymInv h.nodup sid
  have h3 := mutex_cleanupMatch h.toSymInv h.mutex sid
  exact {
    connNE := h1.connNE
    queueNE := fun x hx => h1.queueNE x (mem_removeFromQueue hx)
    matchNE := h1.matchNE
    sym := h1.sym
    nodup := removeFromQueue_nodup h2
    mutex := fun x hx => h3 x (mem_removeFromQueue hx) }

theorem symInv_disconnectStep {st : Broker} (h : SymInv st) (sid : String) :
    SymInv (disconnectStep st sid).1 := by
  unfold disconnectStep
  have h' : SymInv { st with connected := st.connected.erase sid } :=
    { connNE := fun c hc => h.connNE c (List.mem_of_mem_erase hc),
      queueNE := h.queueNE, matchNE := h.matchNE, sym := h.sym }
  exact symInv_cancelStep h' sid

theorem brokerInv_disconnectStep {st : Broker} (h : BrokerInv st) (sid : String) :
    BrokerInv (disconnectStep st sid).1 := by
  unfold disconnectStep
  have h' : BrokerInv { st with connected := st.connected.erase sid } :=
    { connNE := fun c hc => h.connNE c (List.mem_of_mem_erase hc),
      queueNE := h.queueNE, matchNE := h.matchNE, sym := h.sym,
      nodup := h.nodup, mutex := h.mutex }
  exact brokerInv_cancelStep h' sid

/-- The guard of the amended invariant claims: a `match:report` must be
issued from the `Paired` state (the reporter holds a pairing), as §4.4 of
the specification requires; every other event is unrestricted. -/
def guardedB (st : Broker) : Event → Bool
  | .report i _ => (st.matchTab i).isSome
  | _ => true

theorem symInv_stepB {st : Broker} {e : Event} (h : SymInv st)
    (ha : allowedB st e = true) : SymInv (stepB st e) := by
  cases e with
  | connect i =>
      simp only [allowedB, Bool.and_eq_true] at ha
      refine { connNE := ?_, queueNE := h.queueNE, matchNE := h.matchNE, sym := h.sym }
      intro c hc
      rcases List.mem_append.mp hc with hc1 | hc1
      · exact h.connNE c hc1
      · rw [List.mem_singleton.mp hc1]
        simpa using ha.2
  | search i prefs now =>
      exact symInv_searchStep h (h.connNE i (by simpa [allowedB] using ha)) prefs now
  | cancel i => exact symInv_cancelStep h i
  | skip i => exact symInv_skipStep h i
  | report i t => exact symInv_reportStep h i t
  | disconnect i => exact symInv_disconnectStep h i
  | block i t => exact symInv_blocklists h _
  | signal i k hp d => exact h

theorem brokerInv_stepB {st : Broker} {e : Event} (h : BrokerInv st)
    (ha : allowedB st e = true) (hg : guardedB st e = true) :
    BrokerInv (stepB st e) := by
  cases e with
  | connect i =>
      simp only [allowedB, Bool.and_eq_true] at ha
      refine { connNE := ?_, queueNE := h.queueNE, matchNE := h.matchNE, sym := h.sym,
               nodup := h.nodup, mutex := h.mutex }
      intro c hc
      rcases List.mem_append.mp hc with hc1 | hc1
      · exact h.connNE c hc1
      · rw [List.mem_singleton.mp hc1]
        simpa using ha.2
  | search i prefs now =>
      exact brokerInv_searchStep h (h.connNE i (by simpa [allowedB] using ha)) prefs now
  | cancel i => exact brokerInv_cancelStep h i
  | skip i => exact brokerInv_skipStep h i
  | report i t =>
      exact brokerInv_reportStep_of_matched h t (by simpa [guardedB] using hg)
  | disconnect i => exact brokerInv_disconnectStep h i
  | block i t => exact brokerInv_blocklists h _
  | signal i k hp d => exact h

theorem symInv_init : SymInv Broker.init := {
  connNE := by intro c hc; simp [Broker.init] at hc
  queueNE := by intro x hx; simp [Broker.init] at hx
  matchNE := by intro a m hm; simp [Broker.init] at hm
  sym := by intro a m hm; simp [Broker.init] at hm }

theorem brokerInv_init : BrokerInv Broker.init := {
  toSymInv := symInv_init
  nodup := by simp [Broker.init]
  mutex := by intro x hx; simp [Broker.init] at hx }

theorem symInv_reachFrom {a b : Broker} (hr : ReachFrom a b) (ha : SymInv a) :
    SymInv b := by
  induction hr with
  | refl => exact ha
  | tail hr hall ih => exact symInv_stepB ih hall

/-- The symmetry invariants hold in every reachable broker state. -/
theorem symInv_reachable {st : Broker} (h : Reachable st) : SymInv st :=
  symInv_reachFrom h symInv_init

/-- Reachability when every `match:report` event happens from `Paired`
(the guarded event system of the amended claims). -/
inductive ReachableG : Broker → Prop where
  | init : ReachableG Broker.init
  | tail {b : Broker} {e : Event} :
      ReachableG b → allowedB b e = true → guardedB b e = true →
        ReachableG (stepB b e)

/-- The full invariant holds in every state of the guarded system. -/
theorem brokerInv_reachableG {st : Broker} (h : ReachableG st) : BrokerInv st := by
  induction h with
  | init => exact brokerInv_init
  | tail hr hall hg ih => exact brokerInv_stepB ih hall hg

/-- Does every event of a trace satisfy the transport side conditions
and the report guard along the way? -/
def guardedRun (st : Broker) : List Event → Bool
  | [] => true
  | e :: es => allowedB st e && guardedB st e && guardedRun (stepB st e) es

theorem reachableG_run :
    ∀ (evs : List Event) (b : Broker), ReachableG b → guardedRun b evs = true →
      ReachableG (run b evs) := by
  intro evs
  induction evs with
  | nil => intro b hb _; exact hb
  | cons e es ih =>
      intro b hb h
      rw [guardedRun, Bool.and_eq_true, Bool.and_eq_true] at h
      exact ih (stepB b e) (ReachableG.tail hb h.1.1 h.1.2) h.2

/-! ### Claim C1 -/

/-- C1: Pairing-table symmetry invariant.  In every state reachable from
the empty broker state by any sequence of events, every key `a` of the
Pairing Table is bound to a Pairing naming `a` as one of its two
participants; the other participant is a distinct id that is also a key,
bound to the very same Pairing (which names `a` back) — entries exist
under both ids together or under neither. -/
theorem C1_pairing_symmetry {st : Broker} (h : Reachable st) :
    ∀ a m, st.matchTab a = some m →
      (m.peerA = a ∨ m.peerB = a) ∧
        st.matchTab (otherOf m a) = some m ∧ otherOf m a ≠ a := by
  intro a m hm
  have hs := symInv_reachable h
  exact ⟨(hs.sym a m hm).1, matchTab_other hs hm, (otherOf_ne hs hm).2⟩

/-- Witness for C1 at a concrete reachable two-participant paired
state. -/
theorem C1_pairing_symmetry_witness :
    ((run Broker.init [Event.connect "A", Event.connect "B",
        Event.search "A" [] 0, Event.search "B" [] 1]).matchTab "B" =
      some { id := "match_1_B_A", peerA := "B", peerB := "A",
             startTime := 1, quality := 1 }) ∧
    ((({ id := "match_1_B_A", peerA := "B", peerB := "A",
         startTime := 1, quality := 1 } : Match).peerA = "B" ∨
      ({ id := "match_1_B_A", peerA := "B", peerB := "A",
         startTime := 1, quality := 1 } : Match).peerB = "B") ∧
      (run Broker.init [Event.connect "A", Event.connect "B",
        Event.search "A" [] 0, Event.search "B" [] 1]).matchTab
        (otherOf { id := "match_1_B_A", peerA := "B", peerB := "A",
                   startTime := 1, quality := 1 } "B") =
        some { id := "match_1_B_A", peerA := "B", peerB := "A",
               startTime := 1, quality := 1 } ∧
      otherOf { id := "match_1_B_A", peerA := "B", peerB := "A",
                startTime := 1, quality := 1 } "B" ≠ "B") :=
  ⟨by decide,
   C1_pairing_symmetry (reachable_run _ (by decide)) "B"
     { id := "match_1_B_A", peerA := "B", peerB := "A",
       startTime := 1, quality := 1 } (by decide)⟩

/-! ### Claim C2 -/

/-- C2 counterexample: the claim as stated is false.  After
`search A; report A "X"` the queue holds `A` twice; a subsequent
`search B` pairs `B` with `A` but removes only the first queue copy of
`A`, leaving a reachable state in which `A` is simultaneously waiting
and a key of the Pairing Table. -/
theorem C2_mutual_exclusion_cex :
    Reachable (run Broker.init [Event.connect "A", Event.search "A" [] 0,
      Event.report "A" "X", Event.connect "B", Event.search "B" [] 1]) ∧
    (∃ x ∈ (run Broker.init [Event.connect "A", Event.search "A" [] 0,
      Event.report "A" "X", Event.connect "B", Event.search "B" [] 1]).queue,
        x.id = "A") ∧
    ((run Broker.init [Event.connect "A", Event.search "A" [] 0,
      Event.report "A" "X", Event.connect "B", Event.search "B" [] 1]).matchTab
        "A").isSome = true :=
  ⟨reachable_run _ (by decide), by decide, by decide⟩

/-- C2 (amended): mutual exclusion holds in every state reachable when
each `match:report` is issued by a participant currently holding a
Pairing (the `Paired` precondition of §4.4): no participant id is then
simultaneously in the Waiting Queue and a key of the Pairing Table. -/
theorem C2_mutual_exclusion_guarded {st : Broker} (h : ReachableG st) :
    ∀ x ∈ st.queue, st.matchTab x.id = none :=
  (brokerInv_reachableG h).mutex

/-- Witness for the amended C2 at a concrete guarded-reachable state
with a waiting participant. -/
theorem C2_mutual_exclusion_guarded_witness :
    (run Broker.init [Event.connect "A", Event.search "A" [] 0]).matchTab "A" = none :=
  C2_mutual_exclusion_guarded
    (reachableG_run [Event.connect "A", Event.search "A" [] 0] Broker.init
      ReachableG.init (by decide))
    { id := "A", prefs := [], blocked := [] } (by decide)

/-! ### Claim C7 -/

/-- C7 counterexample: the claim as stated is false.  `match:report`
with no active Pairing still re-enqueues the reporter, so after
`search A; report A "X"` the reachable queue holds the id `A` twice. -/
theorem C7_queue_uniqueness_cex :
    Reachable (run Broker.init [Event.connect "A", Event.search "A" [] 0,
      Event.report "A" "X"]) ∧
    ¬ (((run Broker.init [Event.connect "A", Event.search "A" [] 0,
      Event.report "A" "X"]).queue.map Peer.id).Nodup) :=
  ⟨reachable_run _ (by decide), by decide⟩

/-- C7 (amended): queue uniqueness holds in every state reachable when
each `match:report` is issued by a participant currently holding a
Pairing (the `Paired` precondition of §4.4): no participant id then
occurs more than once in the Waiting Queue. -/
theorem C7_queue_uniqueness_guarded {st : Broker} (h : ReachableG st) :
    (st.queue.map Peer.id).Nodup :=
  (brokerInv_reachableG h).nodup

/-- Witness for the amended C7 at a concrete guarded-reachable state. -/
theorem C7_queue_uniqueness_guarded_witness :
    ((run Broker.init [Event.connect "A", Event.search "A" [] 0,
      Event.connect "B"]).queue.map Peer.id).Nodup :=
  C7_queue_uniqueness_guarded
    (reachableG_run [Event.connect "A", Event.search "A" [] 0, Event.connect "B"]
      Broker.init ReachableG.init (by decide))

/-! ### Claim C3 -/

/-- The eligibility condition of the matching scan, stated
propositionally in the words of the specification: a candidate's id
differs from the searcher's, the candidate holds no Pairing Table entry,
its id is not in the searcher's blocked set, and its own block set does
not contain the searcher's id. -/
def Eligible (st : Broker) (peer x : Peer) : Prop :=
  x.id ≠ peer.id ∧ st.matchTab x.id = none ∧
    x.id ∉ peer.blocked ∧ peer.id ∉ st.blocklists x.id

theorem eligible_iff (st : Broker) (peer x : Peer) :
    eligibleB st peer x = true ↔ Eligible st peer x := by
  constructor
  · exact eligibleB_spec
  · rintro ⟨h1, h2, h3, h4⟩
    simp [eligibleB, h1, h2, h3, h4]

/-- C3: matching-algorithm correctness.  For every broker state and
searching participant, the scan state is the queue after cleanup,
de-duplication and appending the fresh searcher record.  If the scan
finds no candidate, no queue element is eligible and the searcher
remains at the tail of the queue.  If it finds candidate `c`, then `c`
is an eligible queue element all of whose predecessors in insertion
order are ineligible (first match wins, no scoring or backtracking),
and the resulting state pairs the searcher with `c` under both ids. -/
theorem C3_matching_first (st : Broker) (sid : String) (prefs : Prefs) (now : Nat) :
    (findMatchFor (preScan st sid prefs).1 (preScan st sid prefs).2.1 = none →
      (∀ x ∈ (preScan st sid prefs).1.queue,
          ¬ Eligible (preScan st sid prefs).1 (preScan st sid prefs).2.1 x) ∧
      (searchStep st sid prefs now).1.queue =
        removeFromQueue (cleanupMatch st sid).1.queue sid ++
          [(preScan st sid prefs).2.1]) ∧
    (∀ c, findMatchFor (preScan st sid prefs).1 (preScan st sid prefs).2.1 = some c →
      (∃ l1 l2, (preScan st sid prefs).1.queue = l1 ++ c :: l2 ∧
          Eligible (preScan st sid prefs).1 (preScan st sid prefs).2.1 c ∧
          ∀ x ∈ l1, ¬ Eligible (preScan st sid prefs).1 (preScan st sid prefs).2.1 x) ∧
      (searchStep st sid prefs now).1.matchTab sid = some (mkMatch now sid c.id) ∧
      (searchStep st sid prefs now).1.matchTab c.id = some (mkMatch now sid c.id)) := by
  constructor
  · intro hf
    constructor
    · intro x hx hE
      exact List.find?_eq_none.mp hf x hx ((eligible_iff _ _ _).mpr hE)
    · rw [searchStep_of_none hf]; exact rfl
  · intro c hf
    have hguard := List.find?_some hf
    obtain ⟨hne1, -, -, -⟩ := eligibleB_spec hguard
    have hcs : sid ≠ c.id := fun hc => hne1 hc.symm
    rcases find?_first _ _ _ hf with ⟨l1, l2, heq, hpa, hprev⟩
    rw [searchStep_of_some hf]
    refine ⟨⟨l1, l2, heq, (eligible_iff _ _ _).mp hpa, ?_⟩, ?_, ?_⟩
    · intro x hx hE
      exact absurd ((eligible_iff _ _ _).mpr hE) (by simpa using hprev x hx)
    · show mset (mset (preScan st sid prefs).1.matchTab sid _) c.id _ sid = _
      rw [mset_other hcs, mset_same]
    · exact mset_same _ _ _

/-- Witness for C3: with `P1` waiting and `P2` searching, the chosen
candidate is `P1` and both ids are paired. -/
theorem C3_matching_first_witness :
    (searchStep (run Broker.init [Event.connect "P1", Event.connect "P2",
        Event.search "P1" [] 0]) "P2" [] 1).1.matchTab "P2" =
      some { id := "match_1_P2_P1", peerA := "P2", peerB := "P1",
             startTime := 1, quality := 1 } ∧
    (searchStep (run Broker.init [Event.connect "P1", Event.connect "P2",
        Event.search "P1" [] 0]) "P2" [] 1).1.matchTab "P1" =
      some { id := "match_1_P2_P1", peerA := "P2", peerB := "P1",
             startTime := 1, quality := 1 } := by
  have h := (C3_matching_first (run Broker.init [Event.connect "P1",
    Event.connect "P2", Event.search "P1" [] 0]) "P2" [] 1).2
    { id := "P1", prefs := [], blocked := [] } (by decide)
  exact ⟨h.2.1, h.2.2⟩

/-! ### Claim C4 -/

/-- `a` and `b` are bound together by the Pairing stored under `a`. -/
def pairedWith (st : Broker) (a b : String) : Prop :=
  ∃ m, st.matchTab a = some m ∧
    ((m.peerA = a ∧ m.peerB = b) ∨ (m.peerA = b ∧ m.peerB = a))

/-- `cleanupMatch` only ever deletes pairing-table entries. -/
theorem cleanupMatch_matchTab_le (st : Broker) (pid x : String) :
    (cleanupMatch st pid).1.matchTab x = none ∨
      (cleanupMatch st pid).1.matchTab x = st.matchTab x := by
  cases hm : st.matchTab pid with
  | none => rw [cleanupMatch_none hm]; right; rfl
  | some m =>
      rw [cleanupMatch_some hm]
      simp only [cleanupSome]
      split
      · by_cases hx : x = pid
        · subst hx; left; exact mdel_same _ _
        · right; exact mdel_other hx
      · by_cases hx : x = pid
        · subst hx; left; exact mdel_same _ _
        · by_cases hx2 : x = otherOf m pid
          · left
            show mdel (mdel st.matchTab (otherOf m pid)) pid x = none
            rw [mdel_other hx]
            subst hx2
            exact mdel_same _ _
          · right
            show mdel (mdel st.matchTab (otherOf m pid)) pid x = st.matchTab x
            rw [mdel_other hx, mdel_other hx2]

/-- Core of C4 and the never-again part of C6: a single search never
creates a pairing between two ids one of which blocks the other at scan
time. -/
theorem searchStep_pairedWith {st : Broker} {a b : String}
    (hb : b ∈ st.blocklists a ∨ a ∈ st.blocklists b)
    (sid : String) (prefs : Prefs) (now : Nat)
    (hp : pairedWith (searchStep st sid prefs now).1 a b) :
    pairedWith st a b := by
  have hbl : (preScan st sid prefs).1.blocklists = st.blocklists :=
    cleanupMatch_blocklists st sid
  have hpre : ∀ y m', (preScan st sid prefs).1.matchTab y = some m' →
      st.matchTab y = some m' := by
    intro y m' hy
    rcases cleanupMatch_matchTab_le st sid y with hc | hc
    · rw [show (preScan st sid prefs).1.matchTab y =
          (cleanupMatch st sid).1.matchTab y from rfl, hc] at hy
      cases hy
    · rwa [show (preScan st sid prefs).1.matchTab y =
          (cleanupMatch st sid).1.matchTab y from rfl, hc] at hy
  cases hf : findMatchFor (preScan st sid prefs).1 (preScan st sid prefs).2.1 with
  | none =>
      rw [searchStep_of_none hf] at hp
      obtain ⟨m, hm, hor⟩ := hp
      exact ⟨m, hpre a m hm, hor⟩
  | some mp =>
      rw [searchStep_of_some hf] at hp
      obtain ⟨m, hm, hor⟩ := hp
      have hguard := List.find?_some hf
      obtain ⟨-, -, hg3, hg4⟩ := eligibleB_spec hguard
      have hg3' : mp.id ∉ st.blocklists sid := by
        have hbb : (preScan st sid prefs).2.1.blocked = st.blocklists sid :=
          congrFun (cleanupMatch_blocklists st sid) sid
        exact hbb ▸ hg3
      have hg4' : sid ∉ st.blocklists mp.id := by
        have hbb : (preScan st sid prefs).1.blocklists mp.id = st.blocklists mp.id :=
          congrFun hbl mp.id
        exact hbb ▸ hg4
      have hnew : mkMatch now sid mp.id ≠ m := by
        intro hma
        subst hma
        rcases hor with ⟨h1, h2⟩ | ⟨h1, h2⟩
        · rw [← h1, ← h2] at hb
          rcases hb with hb | hb
          · exact hg3' hb
          · exact hg4' hb
        · rw [← h1, ← h2] at hb
          rcases hb with hb | hb
          · exact hg4' hb
          · exact hg3' hb
      rcases mset_eq_some hm with ⟨-, rfl⟩ | ⟨-, hm2⟩
      · exact absurd rfl hnew
      · rcases mset_eq_some hm2 with ⟨-, rfl⟩ | ⟨-, hm3⟩
        · exact absurd rfl hnew
        · exact ⟨m, hpre a m hm3, hor⟩

/-- C4: blocks are respected symmetrically.  If `a` has blocked `b` or
`b` has blocked `a` at the time of a search, that search — whoever
issues it — never creates a Pairing binding `a` and `b`: any such
binding present afterwards was already present before. -/
theorem C4_blocks_respected {st : Broker} {a b : String}
    (hb : b ∈ st.blocklists a ∨ a ∈ st.blocklists b)
    (sid : String) (prefs : Prefs) (now : Nat)
    (hp : pairedWith (searchStep st sid prefs now).1 a b) :
    pairedWith st a b :=
  searchStep_pairedWith hb sid prefs now hp

/-- Witness for C4: `A` and `B` got paired before `A` blocked `B`; a
later unrelated search by `C` leaves that old pairing — and only that —
in place. -/
theorem C4_blocks_respected_witness :
    pairedWith (run Broker.init [Event.connect "A", Event.connect "B",
      Event.search "A" [] 0, Event.search "B" [] 5,
      Event.block "A" "B", Event.connect "C"]) "A" "B" :=
  C4_blocks_respected (Or.inl (by decide)) "C" [] 9
    ⟨{ id := "match_5_B_A", peerA := "B", peerB := "A",
       startTime := 5, quality := 1 },
     by decide, Or.inr ⟨by decide, by decide⟩⟩

/-! ### Claim C5 -/

theorem requeueTarget_of_not_queued {st : Broker} {other : String}
    (h : ∀ x ∈ st.queue, x.id ≠ other) :
    requeueTarget st other =
      if st.connected.contains other then
        st.queue ++ [{ id := other, prefs := [], blocked := st.blocklists other }]
      else st.queue := by
  unfold requeueTarget
  have hnone : st.queue.find? (fun q => q.id == other) = none :=
    List.find?_eq_none.mpr (fun x hx => by simpa using h x hx)
  rw [hnone]
  rfl

/-- C5 counterexample: the claim as stated fails on a reachable state.
Two no-pairing reports duplicate `A` in the queue; `B`'s search pairs
`B` with `A` but removes only one copy, so when `B` cancels, the still
connected peer `A` ends up present in the queue twice, not exactly
once. -/
theorem C5_teardown_cex :
    Reachable (run Broker.init [Event.connect "A", Event.search "A" [] 0,
      Event.report "A" "X", Event.report "A" "X",
      Event.connect "B", Event.search "B" [] 7]) ∧
    (run Broker.init [Event.connect "A", Event.search "A" [] 0,
      Event.report "A" "X", Event.report "A" "X",
      Event.connect "B", Event.search "B" [] 7]).matchTab "B" =
        some (mkMatch 7 "B" "A") ∧
    otherOf (mkMatch 7 "B" "A") "B" = "A" ∧
    "A" ∈ (run Broker.init [Event.connect "A", Event.search "A" [] 0,
      Event.report "A" "X", Event.report "A" "X",
      Event.connect "B", Event.search "B" [] 7]).connected ∧
    (cancelStep (run Broker.init [Event.connect "A", Event.search "A" [] 0,
      Event.report "A" "X", Event.report "A" "X",
      Event.connect "B", Event.search "B" [] 7]) "B").1.queue.countP
        (fun x => x.id == "A") = 2 :=
  ⟨reachable_run _ (by decide), by decide, by decide, by decide, by decide⟩

/-- C5 (amended): the teardown postcondition holds for every state in
which `p` holds a Pairing whose peer `o` is a distinct nonempty id and
in which — as the (amended) mutual-exclusion and uniqueness invariants
provide — neither `p` nor `o` is already waiting.  After `cancel(p)`:
neither id has a Pairing Table entry, `o` is sent a `cancelled`
notification, `p` is not in the Waiting Queue, and `o` is re-enqueued
with empty preferences exactly once if still connected and not at all
otherwise. -/
theorem C5_teardown (st : Broker) (p : String) (m : Match)
    (hm : st.matchTab p = some m)
    (hone : otherOf m p ≠ "") (hop : otherOf m p ≠ p)
    (hpq : ∀ x ∈ st.queue, x.id ≠ p)
    (hoq : ∀ x ∈ st.queue, x.id ≠ otherOf m p) :
    (cancelStep st p).1.matchTab p = none ∧
    (cancelStep st p).1.matchTab (otherOf m p) = none ∧
    Out.cancelled (otherOf m p) ∈ (cancelStep st p).2 ∧
    (∀ x ∈ (cancelStep st p).1.queue, x.id ≠ p) ∧
    (st.connected.contains (otherOf m p) = true →
      (cancelStep st p).1.queue.countP (fun x => x.id == otherOf m p) = 1 ∧
      ∀ x ∈ (cancelStep st p).1.queue, x.id = otherOf m p → x.prefs = []) ∧
    (st.connected.contains (otherOf m p) = false →
      ∀ x ∈ (cancelStep st p).1.queue, x.id ≠ otherOf m p) := by
  have hq1 : requeueTarget st (otherOf m p) =
      if st.connected.contains (otherOf m p) then
        st.queue ++ [{ id := otherOf m p, prefs := [],
                       blocked := st.blocklists (otherOf m p) }]
      else st.queue := requeueTarget_of_not_queued hoq
  have hallp : ∀ x ∈ requeueTarget st (otherOf m p), x.id ≠ p := by
    rw [hq1]
    split
    · intro x hx
      rcases List.mem_append.mp hx with hx1 | hx1
      · exact hpq x hx1
      · rw [List.mem_singleton.mp hx1]; exact hop
    · exact hpq
  simp only [cancelStep, cleanupMatch_some hm, cleanupSome_eq hone]
  have hqfix : removeFromQueue (removeFromQueue (requeueTarget st (otherOf m p)) p) p =
      requeueTarget st (otherOf m p) := by
    rw [removeFromQueue_of_forall_ne hallp, removeFromQueue_of_forall_ne hallp]
  refine ⟨?_, ?_, ?_, ?_, ?_, ?_⟩
  · exact mdel_same _ _
  · show mdel (mdel st.matchTab (otherOf m p)) p (otherOf m p) = none
    rw [mdel_other hop, mdel_same]
  · exact List.mem_append_left _ (List.mem_singleton.mpr rfl)
  · show ∀ x ∈ removeFromQueue (removeFromQueue (requeueTarget st (otherOf m p)) p) p,
      x.id ≠ p
    rw [hqfix]
    exact hallp
  · intro hconn
    have hq2 : removeFromQueue (removeFromQueue (requeueTarget st (otherOf m p)) p) p =
        st.queue ++ [{ id := otherOf m p, prefs := [],
                       blocked := st.blocklists (otherOf m p) }] := by
      rw [hqfix, hq1, if_pos hconn]
    constructor
    · show (removeFromQueue (removeFromQueue (requeueTarget st (otherOf m p)) p) p).countP
        (fun x => x.id == otherOf m p) = 1
      rw [hq2, List.countP_append, List.countP_eq_zero.mpr
        (fun x hx => by simpa using hoq x hx)]
      simp
    · show ∀ x ∈ removeFromQueue (removeFromQueue (requeueTarget st (otherOf m p)) p) p,
        x.id = otherOf m p → x.prefs = []
      rw [hq2]
      intro x hx hxe
      rcases List.mem_append.mp hx with hx1 | hx1
      · exact absurd hxe (hoq x hx1)
      · rw [List.mem_singleton.mp hx1]
  · intro hconn
    have hq2 : removeFromQueue (removeFromQueue (requeueTarget st (otherOf m p)) p) p =
        st.queue := by
      rw [hqfix, hq1, if_neg (fun hc => by rw [hconn] at hc; cases hc)]
    show ∀ x ∈ removeFromQueue (removeFromQueue (requeueTarget st (otherOf m p)) p) p,
      x.id ≠ otherOf m p
    rw [hq2]
    exact hoq

/-- Witness for the amended C5 at the concrete two-participant paired
state (`A` still connected, so it is re-enqueued exactly once with empty
preferences). -/
theorem C5_teardown_witness :
    (cancelStep (run Broker.init [Event.connect "A", Event.connect "B",
      Event.search "A" [] 0, Event.search "B" [] 1]) "B").1.matchTab "B" = none ∧
    (cancelStep (run Broker.init [Event.connect "A", Event.connect "B",
      Event.search "A" [] 0, Event.search "B" [] 1]) "B").1.queue.countP
        (fun x => x.id == otherOf (mkMatch 1 "B" "A") "B") = 1 := by
  have h := C5_teardown (run Broker.init [Event.connect "A", Event.connect "B",
    Event.search "A" [] 0, Event.search "B" [] 1]) "B" (mkMatch 1 "B" "A")
    (by decide) (by decide) (by decide) (by decide) (by decide)
  exact ⟨h.1, (h.2.2.2.2.1 (by decide)).1⟩

/-! ### Claim C6 -/

theorem skipStep_matchTab_le (st : Broker) (sid x : String) :
    (skipStep st sid).1.matchTab x = none ∨
      (skipStep st sid).1.matchTab x = st.matchTab x := by
  cases hm : st.matchTab sid with
  | none => rw [skipStep_none hm]; right; rfl
  | some m =>
      rw [skipStep_some hm]
      simp only [skipSome]
      rw [requeueIfConnected_matchTab, requeueIfConnected_matchTab]
      by_cases hx : x = sid
      · subst hx; left
        show mdel (mdel st.matchTab x) (otherOf m x) x = none
        exact mdel_none (mdel_same _ _)
      · by_cases hx2 : x = otherOf m sid
        · left
          show mdel (mdel st.matchTab sid) (otherOf m sid) x = none
          rw [hx2, mdel_same]
        · right
          show mdel (mdel st.matchTab sid) (otherOf m sid) x = st.matchTab x
          rw [mdel_other hx2, mdel_other hx]

theorem reportStep_matchTab_le (st : Broker) (sid target x : String) :
    (reportStep st sid target).1.matchTab x = none ∨
      (reportStep st sid target).1.matchTab x = st.matchTab x := by
  cases hm : st.matchTab sid with
  | none =>
      rw [reportStep_none hm]
      show (requeueIfConnected { st with
          blocklists := addBlock st.blocklists sid target } sid).matchTab x = none ∨ _
      rw [requeueIfConnected_matchTab]
      right; rfl
  | some m =>
      rw [reportStep_some hm]
      simp only [reportSome]
      rw [requeueIfConnected_matchTab]
      by_cases hx : x = sid
      · subst hx; left
        show mdel (mdel st.matchTab x) (otherOf m x) x = none
        exact mdel_none (mdel_same _ _)
      · by_cases hx2 : x = otherOf m sid
        · left
          show mdel (mdel st.matchTab sid) (otherOf m sid) x = none
          rw [hx2, mdel_same]
        · right
          show mdel (mdel st.matchTab sid) (otherOf m sid) x = st.matchTab x
          rw [mdel_other hx2, mdel_other hx]

theorem cancelStep_matchTab_le (st : Broker) (sid x : String) :
    (cancelStep st sid).1.matchTab x = none ∨
      (cancelStep st sid).1.matchTab x = st.matchTab x := by
  simp only [cancelStep]
  exact cleanupMatch_matchTab_le st sid x

theorem disconnectStep_matchTab_le (st : Broker) (sid x : String) :
    (disconnectStep st sid).1.matchTab x = none ∨
      (disconnectStep st sid).1.matchTab x = st.matchTab x := by
  unfold disconnectStep
  exact cancelStep_matchTab_le { st with connected := st.connected.erase sid } sid x

theorem searchStep_blocklists (st : Broker) (sid : String) (prefs : Prefs) (now : Nat) :
    (searchStep st sid prefs now).1.blocklists = st.blocklists := by
  cases hf : findMatchFor (preScan st sid prefs).1 (preScan st sid prefs).2.1 with
  | none => rw [searchStep_of_none hf]; exact cleanupMatch_blocklists st sid
  | some mp => rw [searchStep_of_some hf]; exact cleanupMatch_blocklists st sid

theorem cancelStep_blocklists (st : Broker) (sid : String) :
    (cancelStep st sid).1.blocklists = st.blocklists := by
  simp only [cancelStep]
  exact cleanupMatch_blocklists st sid

theorem disconnectStep_blocklists (st : Broker) (sid : String) :
    (disconnectStep st sid).1.blocklists = st.blocklists := by
  unfold disconnectStep
  exact cancelStep_blocklists { st with connected := st.connected.erase sid } sid

theorem skipStep_blocklists (st : Broker) (sid : String) :
    (skipStep st sid).1.blocklists = st.blocklists := by
  cases hm : st.matchTab sid with
  | none => rw [skipStep_none hm]
  | some m =>
      rw [skipStep_some hm]
      simp only [skipSome]
      rw [requeueIfConnected_blocklists, requeueIfConnected_blocklists]

theorem reportStep_blocklists_mono {st : Broker} {p o : String} (sid target : String)
    (h : o ∈ st.blocklists p) :
    o ∈ (reportStep st sid target).1.blocklists p := by
  have h1 : o ∈ addBlock st.blocklists sid target p := addBlock_mono sid target h
  cases hm : st.matchTab sid with
  | none =>
      rw [reportStep_none hm]
      show o ∈ (requeueIfConnected { st with
          blocklists := addBlock st.blocklists sid target } sid).blocklists p
      rw [requeueIfConnected_blocklists]
      exact h1
  | some m =>
      rw [reportStep_some hm]
      simp only [reportSome]
      rw [requeueIfConnected_blocklists]
      exact h1

/-- Block registry entries are never removed: every event preserves
membership of any blocklist. -/
theorem stepB_blocklists_mono {st : Broker} (e : Event) {p o : String}
    (h : o ∈ st.blocklists p) : o ∈ (stepB st e).blocklists p := by
  cases e with
  | connect i => exact h
  | search i prefs now =>
      show o ∈ (searchStep st i prefs now).1.blocklists p
      rw [searchStep_blocklists]
      exact h
  | cancel i =>
      show o ∈ (cancelStep st i).1.blocklists p
      rw [cancelStep_blocklists]
      exact h
  | skip i =>
      show o ∈ (skipStep st i).1.blocklists p
      rw [skipStep_blocklists]
      exact h
  | report i t => exact reportStep_blocklists_mono i t h
  | disconnect i =>
      show o ∈ (disconnectStep st i).1.blocklists p
      rw [disconnectStep_blocklists]
      exact h
  | block i t => exact addBlock_mono i t h
  | signal i k hp d => exact h

/-- The pairing table binds `p` and `o` together, under either key. -/
def PairsPair (st : Broker) (p o : String) : Prop :=
  pairedWith st p o ∨ pairedWith st o p

theorem pairedWith_of_matchTab_le {st st' : Broker} {a b : String}
    (hle : ∀ x, st'.matchTab x = none ∨ st'.matchTab x = st.matchTab x)
    (h : pairedWith st' a b) : pairedWith st a b := by
  obtain ⟨m, hm, hor⟩ := h
  rcases hle a with h0 | h0
  · rw [h0] at hm; cases hm
  · rw [h0] at hm; exact ⟨m, hm, hor⟩

/-- Once `o` is in `p`'s blocklist and no pairing binds them, no event
can create a pairing binding them. -/
theorem no_new_pair_step {st : Broker} {p o : String} (e : Event)
    (hb : o ∈ st.blocklists p) (hnp : ¬ PairsPair st p o) :
    ¬ PairsPair (stepB st e) p o := by
  intro hP
  apply hnp
  cases e with
  | connect i => exact hP
  | signal i k hp d => exact hP
  | block i t => exact hP
  | search i prefs now =>
      rcases hP with h1 | h1
      · exact Or.inl (searchStep_pairedWith (Or.inl hb) i prefs now h1)
      · exact Or.inr (searchStep_pairedWith (Or.inr hb) i prefs now h1)
  | cancel i =>
      rcases hP with h1 | h1
      · exact Or.inl (pairedWith_of_matchTab_le (cancelStep_matchTab_le st i) h1)
      · exact Or.inr (pairedWith_of_matchTab_le (cancelStep_matchTab_le st i) h1)
  | skip i =>
      rcases hP with h1 | h1
      · exact Or.inl (pairedWith_of_matchTab_le (skipStep_matchTab_le st i) h1)
      · exact Or.inr (pairedWith_of_matchTab_le (skipStep_matchTab_le st i) h1)
  | report i t =>
      rcases hP with h1 | h1
      · exact Or.inl (pairedWith_of_matchTab_le (reportStep_matchTab_le st i t) h1)
      · exact Or.inr (pairedWith_of_matchTab_le (reportStep_matchTab_le st i t) h1)
  | disconnect i =>
      rcases hP with h1 | h1
      · exact Or.inl (pairedWith_of_matchTab_le (disconnectStep_matchTab_le st i) h1)
      · exact Or.inr (pairedWith_of_matchTab_le (disconnectStep_matchTab_le st i) h1)

theorem blocked_invariant_reachFrom {s t : Broker} (hr : ReachFrom s t)
    {p o : String} (hb : o ∈ s.blocklists p) (hnp : ¬ PairsPair s p o) :
    o ∈ t.blocklists p ∧ ¬ PairsPair t p o := by
  induction hr with
  | refl => exact ⟨hb, hnp⟩
  | tail hr hall ih =>
      exact ⟨stepB_blocklists_mono _ ih.1, no_new_pair_step _ ih.1 ih.2⟩

/-- C6: report asymmetry.  If `p` holds a Pairing with peer
`o = otherOf m p` and reports `o`, then afterwards `o` is in `p`'s block
set, neither `p` nor `o` has a Pairing Table entry, `o` is sent a
`reported` notification, `p` alone is re-enqueued (with empty
preferences, and only if still connected) while `o` is not, and in every
state reachable from there by any events no pairing ever binds `p` and
`o` again. -/
theorem C6_report_asymmetry (st : Broker) (p : String) (m : Match)
    (hm : st.matchTab p = some m) :
    otherOf m p ∈ (reportStep st p (otherOf m p)).1.blocklists p ∧
    (reportStep st p (otherOf m p)).1.matchTab p = none ∧
    (reportStep st p (otherOf m p)).1.matchTab (otherOf m p) = none ∧
    Out.reported (otherOf m p) ∈ (reportStep st p (otherOf m p)).2 ∧
    (reportStep st p (otherOf m p)).1.queue =
      st.queue ++
        (if st.connected.contains p then
          [{ id := p, prefs := [],
             blocked := addBlock st.blocklists p (otherOf m p) p }]
         else []) ∧
    ∀ t, ReachFrom (reportStep st p (otherOf m p)).1 t →
      ¬ PairsPair t p (otherOf m p) := by
  rw [reportStep_some hm]
  simp only [reportSome]
  have hmt : ∀ x, (requeueIfConnected { { st with
      blocklists := addBlock st.blocklists p (otherOf m p) } with
      matchTab := mdel (mdel st.matchTab p) (otherOf m p) } p).matchTab x =
      mdel (mdel st.matchTab p) (otherOf m p) x := by
    intro x
    rw [requeueIfConnected_matchTab]
  have h2 : (requeueIfConnected { { st with
      blocklists := addBlock st.blocklists p (otherOf m p) } with
      matchTab := mdel (mdel st.matchTab p) (otherOf m p) } p).matchTab p = none := by
    rw [hmt p]
    exact mdel_none (mdel_same _ _)
  have h3 : (requeueIfConnected { { st with
      blocklists := addBlock st.blocklists p (otherOf m p) } with
      matchTab := mdel (mdel st.matchTab p) (otherOf m p) } p).matchTab
      (otherOf m p) = none := by
    rw [hmt (otherOf m p)]
    exact mdel_same _ _
  refine ⟨?_, h2, h3, ?_, ?_, ?_⟩
  · show otherOf m p ∈ (requeueIfConnected _ p).blocklists p
    rw [requeueIfConnected_blocklists]
    exact addBlock_self st.blocklists p (otherOf m p)
  · exact List.mem_cons_self _ _
  · unfold requeueIfConnected
    split
    · rfl
    · exact (List.append_nil st.queue).symm
  · intro t hr
    have hnp : ¬ PairsPair (requeueIfConnected { { st with
        blocklists := addBlock st.blocklists p (otherOf m p) } with
        matchTab := mdel (mdel st.matchTab p) (otherOf m p) } p) p (otherOf m p) := by
      rintro (⟨m', hm', -⟩ | ⟨m', hm', -⟩)
      · rw [h2] at hm'; cases hm'
      · rw [h3] at hm'; cases hm'
    have hb0 : otherOf m p ∈ (requeueIfConnected { { st with
        blocklists := addBlock st.blocklists p (otherOf m p) } with
        matchTab := mdel (mdel st.matchTab p) (otherOf m p) } p).blocklists p := by
      rw [requeueIfConnected_blocklists]
      exact addBlock_self st.blocklists p (otherOf m p)
    exact (blocked_invariant_reachFrom hr hb0 hnp).2

/-- Witness for C6 at the concrete two-participant paired state. -/
theorem C6_report_asymmetry_witness :
    otherOf (mkMatch 1 "B" "A") "B" ∈
      (reportStep (run Broker.init [Event.connect "A", Event.connect "B",
        Event.search "A" [] 0, Event.search "B" [] 1]) "B"
        (otherOf (mkMatch 1 "B" "A") "B")).1.blocklists "B" ∧
    (reportStep (run Broker.init [Event.connect "A", Event.connect "B",
        Event.search "A" [] 0, Event.search "B" [] 1]) "B"
        (otherOf (mkMatch 1 "B" "A") "B")).1.matchTab "B" = none ∧
    ¬ PairsPair (reportStep (run Broker.init [Event.connect "A", Event.connect "B",
        Event.search "A" [] 0, Event.search "B" [] 1]) "B"
        (otherOf (mkMatch 1 "B" "A") "B")).1 "B" (otherOf (mkMatch 1 "B" "A") "B") := by
  have h := C6_report_asymmetry (run Broker.init [Event.connect "A", Event.connect "B",
    Event.search "A" [] 0, Event.search "B" [] 1]) "B" (mkMatch 1 "B" "A") (by decide)
  exact ⟨h.1, h.2.1, h.2.2.2.2.2 _ (ReachFrom.refl _)⟩

/-! ### Claim C8 -/

/-- C8 counterexample: the claim as stated is false.  `match:report`
invoked by a participant with no Pairing Table entry (its precondition
per §4.4 is `Paired`) does not leave the Waiting Queue unchanged: it
re-enqueues the reporter. -/
theorem C8_defensive_noop_cex :
    Reachable (run Broker.init [Event.connect "A", Event.search "A" [] 0]) ∧
    (run Broker.init [Event.connect "A", Event.search "A" [] 0]).matchTab "A" = none ∧
    (reportStep (run Broker.init [Event.connect "A", Event.search "A" [] 0])
        "A" "X").1.queue ≠
      (run Broker.init [Event.connect "A", Event.search "A" [] 0]).queue :=
  ⟨reachable_run _ (by decide), by decide, by decide⟩

/-- C8 (amended): for a participant with no Pairing Table entry and no
Waiting Queue entry, `skip` is a complete no-op, `cancel` and
`disconnect` leave the queue and the pairing table unchanged, and none
of the three emits any peer-directed notification (only the queue-length
broadcast); `report` without a Pairing likewise leaves the pairing table
unchanged and emits no peer-directed notification, but — deviating from
the claim — it records the block and re-enqueues the reporter when the
reporter is still connected.  No operation raises an error (every
handler is a total function). -/
theorem C8_defensive_noop (st : Broker) (sid : String)
    (hnm : st.matchTab sid = none) (hnq : ∀ x ∈ st.queue, x.id ≠ sid) :
    skipStep st sid = (st, []) ∧
    (cancelStep st sid).1 = st ∧
    (cancelStep st sid).2 = [Out.queueCount st.queue.length] ∧
    (∀ out ∈ (cancelStep st sid).2, out.peerDirected = false) ∧
    (disconnectStep st sid).1.queue = st.queue ∧
    (disconnectStep st sid).1.matchTab = st.matchTab ∧
    (∀ out ∈ (disconnectStep st sid).2, out.peerDirected = false) ∧
    ∀ target,
      (reportStep st sid target).1.matchTab = st.matchTab ∧
      (reportStep st sid target).1.queue =
        st.queue ++
          (if st.connected.contains sid then
            [{ id := sid, prefs := [],
               blocked := addBlock st.blocklists sid target sid }]
           else []) ∧
      (∀ out ∈ (reportStep st sid target).2, out.peerDirected = false) := by
  have hq : removeFromQueue st.queue sid = st.queue := removeFromQueue_of_forall_ne hnq
  have hcq : cancelStep st sid = (st, [Out.queueCount st.queue.length]) := by
    simp only [cancelStep, cleanupMatch_none hnm, hq]
    rfl
  have hdq : disconnectStep st sid =
      ({ st with connected := st.connected.erase sid },
       [Out.queueCount st.queue.length]) := by
    unfold disconnectStep
    simp only [cancelStep,
      cleanupMatch_none (show ({ st with connected := st.connected.erase sid } :
        Broker).matchTab sid = none from hnm), hq]
    rfl
  refine ⟨skipStep_none hnm, ?_, ?_, ?_, ?_, ?_, ?_, ?_⟩
  · rw [hcq]
  · rw [hcq]
  · rw [hcq]
    intro out hout
    rw [List.mem_singleton.mp hout]
    rfl
  · rw [hdq]
  · rw [hdq]
  · rw [hdq]
    intro out hout
    rw [List.mem_singleton.mp hout]
    rfl
  · intro target
    rw [reportStep_none hnm]
    refine ⟨?_, ?_, ?_⟩
    · rw [requeueIfConnected_matchTab]
    · unfold requeueIfConnected
      split
      · rfl
      · exact (List.append_nil st.queue).symm
    · intro out hout
      rw [List.mem_singleton.mp hout]
      rfl

/-- Witness for the amended C8 at a concrete idle participant. -/
theorem C8_defensive_noop_witness :
    skipStep (run Broker.init [Event.connect "A"]) "A" =
      (run Broker.init [Event.connect "A"], []) ∧
    (cancelStep (run Broker.init [Event.connect "A"]) "A").1 =
      run Broker.init [Event.connect "A"] := by
  have h := C8_defensive_noop (run Broker.init [Event.connect "A"]) "A"
    (by decide) (by decide)
  exact ⟨h.1, h.2.1⟩

/-! ### Claim C9 -/

/-- The subsequence of queue-length broadcasts in an output trace. -/
def queueCounts (outs : List Out) : List Nat :=
  outs.filterMap fun o =>
    match o with
    | .queueCount n => some n
    | _ => none

/-- C9 counterexample: the claim as stated is false.  The search handler
broadcasts a count after every enqueue, so the two searches emit the
queue:count sequence 1, 2, 0 — not exactly 1 then 0. -/
theorem C9_simple_pairing_cex :
    queueCounts
      ((stepOut (run Broker.init [Event.connect "P1", Event.connect "P2"])
          (Event.search "P1" [] 0)).2 ++
        (stepOut (stepB (run Broker.init [Event.connect "P1", Event.connect "P2"])
            (Event.search "P1" [] 0)) (Event.search "P2" [] 1)).2) ≠ [1, 0] := by
  decide

/-- C9 (amended): starting from the empty broker with `P1` and `P2`
connected, after `P1` searches and then `P2` searches, `P2` receives a
found notification naming `P1`, `P1` one naming `P2`, the queue is
empty, and the queue:count broadcasts over the two operations are
exactly 1, 2, 0 (the transient count 2 is broadcast after `P2` is
enqueued, before the pair is formed). -/
theorem C9_simple_pairing :
    Out.found "P2"
        { peerId := "P1", matchId := (mkMatch 1 "P2" "P1").id,
          quality := 1, startTime := 1 } ∈
      (stepOut (stepB (run Broker.init [Event.connect "P1", Event.connect "P2"])
          (Event.search "P1" [] 0)) (Event.search "P2" [] 1)).2 ∧
    Out.found "P1"
        { peerId := "P2", matchId := (mkMatch 1 "P2" "P1").id,
          quality := 1, startTime := 1 } ∈
      (stepOut (stepB (run Broker.init [Event.connect "P1", Event.connect "P2"])
          (Event.search "P1" [] 0)) (Event.search "P2" [] 1)).2 ∧
    (stepB (stepB (run Broker.init [Event.connect "P1", Event.connect "P2"])
        (Event.search "P1" [] 0)) (Event.search "P2" [] 1)).queue = [] ∧
    queueCounts
      ((stepOut (run Broker.init [Event.connect "P1", Event.connect "P2"])
          (Event.search "P1" [] 0)).2 ++
        (stepOut (stepB (run Broker.init [Event.connect "P1", Event.connect "P2"])
            (Event.search "P1" [] 0)) (Event.search "P2" [] 1)).2) = [1, 2, 0] := by
  refine ⟨by decide, by decide, by decide, by decide⟩

/-! ### Claim C10 -/

/-- C10: frame property of `block:user`.  The block operation changes
only the requesting participant's Block Registry entry: the Waiting
Queue, the Pairing Table (hence any active Pairing of the requester) and
the Connection Registry are untouched, no notification is emitted, and
every other participant's blocklist is unchanged — the block can only
influence later matching decisions. -/
theorem C10_block_frame (st : Broker) (sid target : String) :
    (blockStep st sid target).1.queue = st.queue ∧
    (blockStep st sid target).1.matchTab = st.matchTab ∧
    (blockStep st sid target).1.connected = st.connected ∧
    (blockStep st sid target).2 = [] ∧
    ∀ x, x ≠ sid → (blockStep st sid target).1.blocklists x = st.blocklists x := by
  refine ⟨rfl, rfl, rfl, rfl, ?_⟩
  intro x hx
  exact addBlock_other st.blocklists target hx

/-- Witness for C10 at a concrete state and non-requesting id. -/
theorem C10_block_frame_witness :
    (blockStep Broker.init "A" "B").1.queue = Broker.init.queue ∧
    (blockStep Broker.init "A" "B").1.blocklists "C" = Broker.init.blocklists "C" := by
  have h := C10_block_frame Broker.init "A" "B"
  exact ⟨h.1, h.2.2.2.2 "C" (by decide)⟩
